import Mathlib

/-!
Shallow embedding of the open-addressing hash table in `src/hash_table/ht.c`
(linear probing, FNV-1a hashing, doubling growth at load factor 1/2).

Modelling conventions:
* C strings (keys) are finite byte lists; `strcmp == 0` is list equality.
* `void*` values are `Nat`, with `0` standing for `NULL`.
* An empty slot (`key == NULL`) is `none`; an occupied slot is `some (k, v)`.
* 64-bit arithmetic is `Nat` arithmetic reduced `% 2^64`.
* Allocation (`calloc` in `ht_expand`, `strdup` in `ht_set_entry`) may fail;
  each potentially failing allocation site takes an explicit `Bool` oracle
  (`true` = allocation succeeds).
* The unbounded probe loops of `ht_get` / `ht_set_entry` are written with
  fuel; a result of `none` at the outer level means the loop did not reach
  a matching key or an empty slot within `fuel` steps (in C it would keep
  scanning).  All operations are invoked with fuel = capacity, and we prove
  the fuel is never exhausted on reachable tables.
-/

/-- Keys model C strings: byte sequences compared by content (`strcmp`). -/
abbrev Key := List Nat

/-- A slot of the `entries` array: `none` models a `NULL` key (empty slot);
an occupied slot holds the owned key and the stored `void*` value. -/
abbrev Slot := Option (Key × Nat)

abbrev Slots := List Slot

/-- `struct ht`: the entries array, its capacity, and the item count. -/
structure Table where
  entries : Slots
  capacity : Nat
  length : Nat
  deriving DecidableEq

/-- `FNV_OFFSET` from ht.c line 51. -/
def FNV_OFFSET : Nat := 14695981039346656037

/-- `FNV_PRIME` from ht.c line 52. -/
def FNV_PRIME : Nat := 1099511628211

/-- 2^64, the modulus of C `uint64_t` arithmetic. -/
def U64 : Nat := 18446744073709551616

/-- `hash_key` (ht.c lines 56-63): FNV-1a over the bytes of the key; the
`(unsigned char)` cast is the `% 256`. -/
def hash_key (key : Key) : Nat :=
  key.foldl (fun h p => ((h ^^^ (p % 256)) * FNV_PRIME) % U64) FNV_OFFSET

/-- The probe start index `(size_t)(hash & (capacity - 1))`
(ht.c lines 67 and 89). -/
def homeIndex (capacity : Nat) (key : Key) : Nat :=
  hash_key key &&& (capacity - 1)

/-- The probe loop of `ht_get` (ht.c lines 69-80), with explicit fuel.
`some 0` models returning `NULL` (key not found); `some v` returns the
stored value; outer `none` is fuel exhaustion. -/
def ht_get_loop (entries : Slots) (capacity : Nat) (key : Key) :
    Nat → Nat → Option Nat
  | _, 0 => none
  | index, fuel + 1 =>
    match entries.getD index none with
    | none => some 0
    | some (k, v) =>
      if k = key then some v
      else
        ht_get_loop entries capacity key
          (if capacity ≤ index + 1 then 0 else index + 1) fuel

/-- `ht_get` (ht.c lines 65-82). -/
def ht_get (table : Table) (key : Key) : Option Nat :=
  ht_get_loop table.entries table.capacity key
    (homeIndex table.capacity key) table.capacity

/-- The probe loop of `ht_set_entry` (ht.c lines 88-116), with explicit
fuel.  `plength` models whether the `plength` pointer argument is non-NULL,
and `allocOk` whether the `strdup` call succeeds.  On success the result is
`some (some (returned key, updated entries, incremented))` where
`incremented` records whether `*plength += 1` ran (exactly when the key was
freshly duplicated); `some none` models returning `NULL` after a failed
`strdup`; outer `none` is fuel exhaustion. -/
def ht_set_entry_loop (entries : Slots) (capacity : Nat) (key : Key)
    (value : Nat) (plength : Bool) (allocOk : Bool) :
    Nat → Nat → Option (Option (Key × Slots × Bool))
  | _, 0 => none
  | index, fuel + 1 =>
    match entries.getD index none with
    | some (k, _) =>
      if k = key then
        some (some (k, entries.set index (some (k, value)), false))
      else
        ht_set_entry_loop entries capacity key value plength allocOk
          (if capacity ≤ index + 1 then 0 else index + 1) fuel
    | none =>
      if plength then
        if allocOk then
          some (some (key, entries.set index (some (key, value)), true))
        else
          some none
      else
        some (some (key, entries.set index (some (key, value)), false))

/-- `ht_set_entry` (ht.c lines 85-117): probes from the home index, with
fuel = capacity. -/
def ht_set_entry (entries : Slots) (capacity : Nat) (key : Key)
    (value : Nat) (plength : Bool) (allocOk : Bool) :
    Option (Option (Key × Slots × Bool)) :=
  ht_set_entry_loop entries capacity key value plength allocOk
    (homeIndex capacity key) capacity

/-- The rehashing pass of `ht_expand` (ht.c lines 135-143): every occupied
old slot is reinserted into the accumulator array by `ht_set_entry` with
`plength = NULL` (no key duplication, so no allocation can fail there). -/
def ht_expand_copy (new_capacity : Nat) (olds : Slots)
    (acc : Option Slots) : Option Slots :=
  olds.foldl
    (fun acc e =>
      match acc with
      | none => none
      | some s =>
        match e with
        | none => some s
        | some (k, v) =>
          match ht_set_entry s new_capacity k v false true with
          | some (some (_, s2, _)) => some s2
          | _ => none)
    acc

/-- `ht_expand` (ht.c lines 121-148): doubles the capacity (in `size_t`
arithmetic, hence `% 2^64`), fails on overflow or if the `calloc` of the
new array fails (`allocOk = false`), otherwise rehashes every entry.
`some none` models returning `false`; `some (some t)` returning `true`
with the table updated in place. -/
def ht_expand (table : Table) (allocOk : Bool) : Option (Option Table) :=
  let new_capacity := table.capacity * 2 % U64
  if new_capacity < table.capacity then some none
  else if allocOk then
    match ht_expand_copy new_capacity table.entries
        (some (List.replicate new_capacity none)) with
    | some s =>
      some (some { entries := s, capacity := new_capacity,
                   length := table.length })
    | none => none
  else some none

/-- `ht_set` (ht.c lines 150-164).  `allocExpand` is the oracle for the
`calloc` inside `ht_expand`, `allocDup` for the `strdup` inside
`ht_set_entry`.  The result pairs the returned `const char*`
(`none` = `NULL`) with the table after the call. -/
def ht_set (table : Table) (key : Key) (value : Nat)
    (allocExpand allocDup : Bool) : Option (Option Key × Table) :=
  if value = 0 then some (none, table)
  else
    match (if table.capacity / 2 ≤ table.length
           then ht_expand table allocExpand
           else some (some table)) with
    | none => none
    | some none => some (none, table)
    | some (some t2) =>
      match ht_set_entry t2.entries t2.capacity key value true allocDup with
      | none => none
      | some none => some (none, t2)
      | some (some (ret, s, inc)) =>
        some (some ret,
          { entries := s, capacity := t2.capacity,
            length := t2.length + (if inc then 1 else 0) })

/-- `INITIAL_CAPACITY` (ht.c line 23). -/
def INITIAL_CAPACITY : Nat := 16

/-- `ht_create` (ht.c lines 25-40), on the allocation-success path. -/
def ht_create : Table :=
  { entries := List.replicate INITIAL_CAPACITY none,
    capacity := INITIAL_CAPACITY, length := 0 }

/-- `ht_length` (ht.c lines 166-168). -/
def ht_length (table : Table) : Nat := table.length

/-- `hti` (from ht.h): the exposed `key`/`value` fields and the private
table reference and cursor.  `key = none` models the uninitialized field
before the first successful `ht_next`. -/
structure Hti where
  key : Option Key
  value : Nat
  _table : Table
  _index : Nat
  deriving DecidableEq

/-- `ht_iterator` (ht.c lines 170-175): cursor at 0; the C code leaves
`key`/`value` uninitialized, modelled as `none`/`0`. -/
def ht_iterator (table : Table) : Hti :=
  { key := none, value := 0, _table := table, _index := 0 }

/-- The scan loop of `ht_next` (ht.c lines 179-188), with fuel: returns the
first occupied slot at or after `index` together with the cursor after it,
or `(none, index)` when the cursor reached capacity. -/
def ht_next_loop (table : Table) : Nat → Nat → Option (Option (Key × Nat) × Nat)
  | _, 0 => none
  | index, fuel + 1 =>
    if index < table.capacity then
      match table.entries.getD index none with
      | some (k, v) => some (some (k, v), index + 1)
      | none => ht_next_loop table (index + 1) fuel
    else some (none, index)

/-- `ht_next` (ht.c lines 177-190): fuel capacity + 1 always suffices since
the cursor strictly increases up to capacity. -/
def ht_next (it : Hti) : Option (Bool × Hti) :=
  match ht_next_loop it._table it._index (it._table.capacity + 1) with
  | none => none
  | some (none, idx) => some (false, { it with _index := idx })
  | some (some (k, v), idx) =>
    some (true, { it with key := some k, value := v, _index := idx })

/-- Runs a list of `set` operations from a table, all allocations
succeeding, and requires every one of them to succeed (non-`NULL` return). -/
def runSets (t : Table) : List (Key × Nat) → Option Table
  | [] => some t
  | (k, v) :: rest =>
    match ht_set t k v true true with
    | some (some _, t2) => runSets t2 rest
    | _ => none

/-- The value most recently stored for `k` by the operation list `ops`
(`0` = never stored). -/
def lastVal (ops : List (Key × Nat)) (k : Key) : Nat :=
  ops.foldl (fun acc p => if p.1 = k then p.2 else acc) 0

/-- Tables reachable from `ht_create` by any sequence of `ht_set` calls
(successful or failed, any allocation outcomes). -/
inductive Reachable : Table → Prop where
  | create : Reachable ht_create
  | step {t : Table} {k : Key} {v : Nat} {aE aD : Bool} {r : Option Key}
      {t2 : Table} : Reachable t → ht_set t k v aE aD = some (r, t2) →
      Reachable t2

/-- The slots hold the pair `(k, v)` in some occupied position. -/
def HasPair (s : Slots) (k : Key) (v : Nat) : Prop :=
  ∃ i, i < s.length ∧ s.getD i none = some (k, v)

/-- Number of occupied slots. -/
def occCount (s : Slots) : Nat := (s.filterMap id).length

lemma getD_set_self (s : Slots) (i : Nat) (a : Slot) (h : i < s.length) :
    (s.set i a).getD i none = a := by
  induction s generalizing i with
  | nil => simp at h
  | cons x xs ih =>
    cases i with
    | zero => simp [List.set, List.getD]
    | succ j =>
      simp only [List.set, List.getD_cons_succ]
      exact ih j (by simpa using h)

lemma getD_set_ne (s : Slots) (i j : Nat) (a : Slot) (h : i ≠ j) :
    (s.set i a).getD j none = s.getD j none := by
  induction s generalizing i j with
  | nil => simp [List.set]
  | cons x xs ih =>
    cases i with
    | zero =>
      cases j with
      | zero => exact absurd rfl h
      | succ j2 => simp [List.set]
    | succ i2 =>
      cases j with
      | zero => simp [List.set]
      | succ j2 =>
        simp only [List.set, List.getD_cons_succ]
        exact ih i2 j2 (by omega)

lemma getD_replicate (n i : Nat) :
    (List.replicate n (none : Slot)).getD i none = none := by
  induction n generalizing i with
  | zero => simp
  | succ m ih =>
    cases i with
    | zero => simp [List.replicate]
    | succ j =>
      rw [List.replicate, List.getD_cons_succ]
      exact ih j

lemma getD_ge_length (s : Slots) (i : Nat) (h : s.length ≤ i) :
    s.getD i none = none := by
  induction s generalizing i with
  | nil => simp
  | cons x xs ih =>
    cases i with
    | zero => simp at h
    | succ j =>
      simp only [List.getD_cons_succ]
      exact ih j (by simpa using h)

lemma hasPair_iff_mem (s : Slots) (k : Key) (v : Nat) :
    HasPair s k v ↔ (k, v) ∈ s.filterMap id := by
  constructor
  · rintro ⟨i, hi, hget⟩
    induction s generalizing i with
    | nil => simp at hi
    | cons x xs ih =>
      cases i with
      | zero =>
        simp only [List.getD_cons_zero] at hget
        subst hget
        simp
      | succ j =>
        simp only [List.getD_cons_succ] at hget
        have := ih j (by simpa using hi) hget
        cases x <;> simp [this]
  · intro hmem
    induction s with
    | nil => simp at hmem
    | cons x xs ih =>
      cases x with
      | none =>
        simp only [List.filterMap_cons] at hmem
        obtain ⟨i, hi, hget⟩ := ih (by simpa using hmem)
        exact ⟨i + 1, by simp [hi], by simpa using hget⟩
      | some p =>
        simp only [List.filterMap_cons, id, List.mem_cons] at hmem
        rcases hmem with h | h
        · exact ⟨0, by simp, by simp [← h]⟩
        · obtain ⟨i, hi, hget⟩ := ih h
          exact ⟨i + 1, by simp [hi], by simpa using hget⟩

/-- The next probe index computed by the loops equals `(index + 1) % capacity`
when `index < capacity`. -/
lemma next_index_eq {cap idx : Nat} (h : idx < cap) :
    (if cap ≤ idx + 1 then 0 else idx + 1) = (idx + 1) % cap := by
  by_cases hc : cap ≤ idx + 1
  · have : idx + 1 = cap := by omega
    simp [hc, this]
  · rw [if_neg hc, Nat.mod_eq_of_lt (by omega : idx + 1 < cap)]

lemma homeIndex_lt {cap : Nat} (h : 0 < cap) (key : Key) :
    homeIndex cap key < cap :=
  lt_of_le_of_lt Nat.and_le_right (by omega)

/-- Cancellation of probe offsets: two offsets below capacity that land on
the same slot are equal. -/
lemma probe_offset_inj {cap h m n : Nat} (hm : m < cap) (hn : n < cap)
    (he : (h + m) % cap = (h + n) % cap) : m = n := by
  have : m ≡ n [MOD cap] := Nat.ModEq.add_left_cancel' h he
  calc m = m % cap := (Nat.mod_eq_of_lt hm).symm
    _ = n % cap := this
    _ = n := Nat.mod_eq_of_lt hn

/-- If the slots at offsets `m < n` from `idx` all hold keys different from
`key` and the slot at offset `n` holds `key` with value `v`, the `ht_get`
probe loop started at `idx` with more than `n` fuel returns `v`. -/
lemma ht_get_loop_hit (s : Slots) (cap : Nat) (key : Key) (v : Nat) :
    ∀ (n idx fuel : Nat), idx < cap → n < fuel →
    (∀ m, m < n → ∃ e : Key × Nat,
      s.getD ((idx + m) % cap) none = some e ∧ e.1 ≠ key) →
    s.getD ((idx + n) % cap) none = some (key, v) →
    ht_get_loop s cap key idx fuel = some v := by
  intro n
  induction n with
  | zero =>
    intro idx fuel hidx hfuel _ htarget
    obtain ⟨f, rfl⟩ := Nat.exists_eq_succ_of_ne_zero (by omega : fuel ≠ 0)
    rw [Nat.add_zero, Nat.mod_eq_of_lt hidx] at htarget
    simp only [ht_get_loop, htarget]
    simp
  | succ n ih =>
    intro idx fuel hidx hfuel hbad htarget
    obtain ⟨f, rfl⟩ := Nat.exists_eq_succ_of_ne_zero (by omega : fuel ≠ 0)
    obtain ⟨⟨k2, v2⟩, hk2, hne⟩ := hbad 0 (by omega)
    rw [Nat.add_zero, Nat.mod_eq_of_lt hidx] at hk2
    have hcap : 0 < cap := by omega
    have step : ht_get_loop s cap key idx (f + 1)
        = ht_get_loop s cap key ((idx + 1) % cap) f := by
      simp only [ht_get_loop, hk2]
      rw [if_neg (by simpa using hne), next_index_eq hidx]
    rw [step]
    refine ih ((idx + 1) % cap) f (Nat.mod_lt _ hcap) (by omega) ?_ ?_
    · intro m hm
      obtain ⟨e, he, hne2⟩ := hbad (m + 1) (by omega)
      refine ⟨e, ?_, hne2⟩
      rw [Nat.mod_add_mod]
      have : idx + 1 + m = idx + (m + 1) := by omega
      rw [this]
      exact he
    · rw [Nat.mod_add_mod]
      have : idx + 1 + n = idx + (n + 1) := by omega
      rw [this]
      exact htarget

/-- Same as `ht_get_loop_hit` with an empty slot as target: the loop
returns `NULL` (modelled `some 0`). -/
lemma ht_get_loop_empty (s : Slots) (cap : Nat) (key : Key) :
    ∀ (n idx fuel : Nat), idx < cap → n < fuel →
    (∀ m, m < n → ∃ e : Key × Nat,
      s.getD ((idx + m) % cap) none = some e ∧ e.1 ≠ key) →
    s.getD ((idx + n) % cap) none = none →
    ht_get_loop s cap key idx fuel = some 0 := by
  intro n
  induction n with
  | zero =>
    intro idx fuel hidx hfuel _ htarget
    obtain ⟨f, rfl⟩ := Nat.exists_eq_succ_of_ne_zero (by omega : fuel ≠ 0)
    rw [Nat.add_zero, Nat.mod_eq_of_lt hidx] at htarget
    simp only [ht_get_loop, htarget]
  | succ n ih =>
    intro idx fuel hidx hfuel hbad htarget
    obtain ⟨f, rfl⟩ := Nat.exists_eq_succ_of_ne_zero (by omega : fuel ≠ 0)
    obtain ⟨⟨k2, v2⟩, hk2, hne⟩ := hbad 0 (by omega)
    rw [Nat.add_zero, Nat.mod_eq_of_lt hidx] at hk2
    have hcap : 0 < cap := by omega
    have step : ht_get_loop s cap key idx (f + 1)
        = ht_get_loop s cap key ((idx + 1) % cap) f := by
      simp only [ht_get_loop, hk2]
      rw [if_neg (by simpa using hne), next_index_eq hidx]
    rw [step]
    refine ih ((idx + 1) % cap) f (Nat.mod_lt _ hcap) (by omega) ?_ ?_
    · intro m hm
      obtain ⟨e, he, hne2⟩ := hbad (m + 1) (by omega)
      refine ⟨e, ?_, hne2⟩
      rw [Nat.mod_add_mod]
      have : idx + 1 + m = idx + (m + 1) := by omega
      rw [this]
      exact he
    · rw [Nat.mod_add_mod]
      have : idx + 1 + n = idx + (n + 1) := by omega
      rw [this]
      exact htarget

/-- Some value is stored for `k`. -/
def HasKey (s : Slots) (k : Key) : Prop := ∃ v, HasPair s k v

/-- Analogue of `ht_get_loop_hit` for the `ht_set_entry` probe loop: when
the slot at offset `n` holds `key`, the loop overwrites that slot's value
in place, performs no key duplication, and returns the stored key. -/
lemma ht_set_entry_loop_hit (s : Slots) (cap : Nat) (key : Key)
    (value v0 : Nat) (pl al : Bool) :
    ∀ (n idx fuel : Nat), idx < cap → n < fuel →
    (∀ m, m < n → ∃ e : Key × Nat,
      s.getD ((idx + m) % cap) none = some e ∧ e.1 ≠ key) →
    s.getD ((idx + n) % cap) none = some (key, v0) →
    ht_set_entry_loop s cap key value pl al idx fuel
      = some (some (key, s.set ((idx + n) % cap) (some (key, value)), false)) := by
  intro n
  induction n with
  | zero =>
    intro idx fuel hidx hfuel _ htarget
    obtain ⟨f, rfl⟩ := Nat.exists_eq_succ_of_ne_zero (by omega : fuel ≠ 0)
    rw [Nat.add_zero, Nat.mod_eq_of_lt hidx] at htarget ⊢
    simp only [ht_set_entry_loop, htarget]
    simp
  | succ n ih =>
    intro idx fuel hidx hfuel hbad htarget
    obtain ⟨f, rfl⟩ := Nat.exists_eq_succ_of_ne_zero (by omega : fuel ≠ 0)
    obtain ⟨⟨k2, v2⟩, hk2, hne⟩ := hbad 0 (by omega)
    rw [Nat.add_zero, Nat.mod_eq_of_lt hidx] at hk2
    have hcap : 0 < cap := by omega
    have step : ht_set_entry_loop s cap key value pl al idx (f + 1)
        = ht_set_entry_loop s cap key value pl al ((idx + 1) % cap) f := by
      simp only [ht_set_entry_loop, hk2]
      rw [if_neg (by simpa using hne), next_index_eq hidx]
    rw [step]
    have harg : idx + 1 + n = idx + (n + 1) := by omega
    have := ih ((idx + 1) % cap) f (Nat.mod_lt _ hcap) (by omega) ?_ ?_
    · rw [this, Nat.mod_add_mod, harg]
    · intro m hm
      obtain ⟨e, he, hne2⟩ := hbad (m + 1) (by omega)
      refine ⟨e, ?_, hne2⟩
      rw [Nat.mod_add_mod]
      have : idx + 1 + m = idx + (m + 1) := by omega
      rw [this]
      exact he
    · rw [Nat.mod_add_mod, harg]
      exact htarget

/-- Analogue for reaching an empty slot: depending on `plength`/`allocOk`
the loop duplicates the key into the empty slot, or fails (`strdup`),
or (with `plength = NULL`, during growth) moves the key without
duplication. -/
lemma ht_set_entry_loop_empty (s : Slots) (cap : Nat) (key : Key)
    (value : Nat) (pl al : Bool) :
    ∀ (n idx fuel : Nat), idx < cap → n < fuel →
    (∀ m, m < n → ∃ e : Key × Nat,
      s.getD ((idx + m) % cap) none = some e ∧ e.1 ≠ key) →
    s.getD ((idx + n) % cap) none = none →
    ht_set_entry_loop s cap key value pl al idx fuel
      = (if pl then
           if al then
             some (some (key, s.set ((idx + n) % cap) (some (key, value)), true))
           else some none
         else
           some (some (key, s.set ((idx + n) % cap) (some (key, value)), false))) := by
  intro n
  induction n with
  | zero =>
    intro idx fuel hidx hfuel _ htarget
    obtain ⟨f, rfl⟩ := Nat.exists_eq_succ_of_ne_zero (by omega : fuel ≠ 0)
    rw [Nat.add_zero, Nat.mod_eq_of_lt hidx] at htarget ⊢
    simp only [ht_set_entry_loop, htarget]
  | succ n ih =>
    intro idx fuel hidx hfuel hbad htarget
    obtain ⟨f, rfl⟩ := Nat.exists_eq_succ_of_ne_zero (by omega : fuel ≠ 0)
    obtain ⟨⟨k2, v2⟩, hk2, hne⟩ := hbad 0 (by omega)
    rw [Nat.add_zero, Nat.mod_eq_of_lt hidx] at hk2
    have hcap : 0 < cap := by omega
    have step : ht_set_entry_loop s cap key value pl al idx (f + 1)
        = ht_set_entry_loop s cap key value pl al ((idx + 1) % cap) f := by
      simp only [ht_set_entry_loop, hk2]
      rw [if_neg (by simpa using hne), next_index_eq hidx]
    rw [step]
    have harg : idx + 1 + n = idx + (n + 1) := by omega
    have := ih ((idx + 1) % cap) f (Nat.mod_lt _ hcap) (by omega) ?_ ?_
    · rw [this, Nat.mod_add_mod, harg]
    · intro m hm
      obtain ⟨e, he, hne2⟩ := hbad (m + 1) (by omega)
      refine ⟨e, ?_, hne2⟩
      rw [Nat.mod_add_mod]
      have : idx + 1 + m = idx + (m + 1) := by omega
      rw [this]
      exact he
    · rw [Nat.mod_add_mod, harg]
      exact htarget

/-- If some slot is empty, some probe offset below capacity from any start
position reaches an empty slot. -/
lemma exists_probe_offset_empty (s : Slots) {cap h : Nat} (hh : h < cap)
    (hempty : ∃ i, i < cap ∧ s.getD i none = none) :
    ∃ d, d < cap ∧ s.getD ((h + d) % cap) none = none := by
  obtain ⟨i, hi, hnone⟩ := hempty
  have hcap : 0 < cap := by omega
  refine ⟨(cap + i - h) % cap, Nat.mod_lt _ hcap, ?_⟩
  rw [Nat.add_mod_mod]
  have : h + (cap + i - h) = cap + i := by omega
  rw [this, Nat.add_mod_left, Nat.mod_eq_of_lt hi]
  exact hnone

/-- The first empty probe offset from `h`: the offset exists, is below
capacity, and every smaller offset is occupied. -/
lemma first_empty_from (s : Slots) {cap h : Nat} (hh : h < cap)
    (hempty : ∃ i, i < cap ∧ s.getD i none = none) :
    ∃ n, n < cap ∧ s.getD ((h + n) % cap) none = none ∧
      ∀ m, m < n → s.getD ((h + m) % cap) none ≠ none := by
  obtain ⟨d, hd, hdnone⟩ := exists_probe_offset_empty s hh hempty
  have hex : ∃ d, s.getD ((h + d) % cap) none = none := ⟨d, hdnone⟩
  refine ⟨Nat.find hex, ?_, Nat.find_spec hex, ?_⟩
  · exact lt_of_le_of_lt (Nat.find_min' hex hdnone) hd
  · intro m hm
    exact Nat.find_min hex hm

/-- Well-formedness of a slots array of a given capacity: right length,
no duplicate keys, and every occupied slot is reachable from its key's
home index through a gap-free probe path (no empty slot strictly before
it on the path). -/
structure WF (s : Slots) (cap : Nat) : Prop where
  hlen : s.length = cap
  hpos : 0 < cap
  nodup : ∀ i j ki vi kj vj, i < cap → j < cap →
    s.getD i none = some (ki, vi) → s.getD j none = some (kj, vj) →
    ki = kj → i = j
  path : ∀ i k v, i < cap → s.getD i none = some (k, v) →
    ∃ n, n < cap ∧ (homeIndex cap k + n) % cap = i ∧
      ∀ m, m < n → s.getD ((homeIndex cap k + m) % cap) none ≠ none

/-- All stored values are non-`NULL`. -/
def ValsOk (s : Slots) : Prop := ∀ k v, HasPair s k v → v ≠ 0

/-- On a well-formed array, along the probe path of a stored key, every
strictly earlier slot holds some other key. -/
lemma wf_badmatch (s : Slots) {cap : Nat} (wf : WF s cap) {key : Key}
    {v : Nat} {n : Nat} (hn : n < cap)
    (htarget : s.getD ((homeIndex cap key + n) % cap) none = some (key, v))
    (hocc : ∀ m, m < n →
      s.getD ((homeIndex cap key + m) % cap) none ≠ none) :
    ∀ m, m < n → ∃ e : Key × Nat,
      s.getD ((homeIndex cap key + m) % cap) none = some e ∧ e.1 ≠ key := by
  intro m hm
  have hne := hocc m hm
  obtain ⟨e, he⟩ := Option.ne_none_iff_exists'.mp hne
  refine ⟨e, he, ?_⟩
  intro heq
  have hcap : 0 < cap := wf.hpos
  have hpm : (homeIndex cap key + m) % cap < cap := Nat.mod_lt _ hcap
  have hpn : (homeIndex cap key + n) % cap < cap := Nat.mod_lt _ hcap
  have hee : s.getD ((homeIndex cap key + m) % cap) none = some (e.1, e.2) := by
    simpa using he
  have := wf.nodup _ _ e.1 e.2 key v hpm hpn hee htarget heq
  exact absurd (probe_offset_inj (by omega) hn this) (by omega)

/-- `ht_get` probe loop finds a stored pair (well-formed array). -/
lemma ht_get_loop_found (s : Slots) {cap : Nat} (wf : WF s cap) {key : Key}
    {v : Nat} {i : Nat} (hi : i < cap)
    (hget : s.getD i none = some (key, v)) :
    ht_get_loop s cap key (homeIndex cap key) cap = some v := by
  obtain ⟨n, hn, heq, hocc⟩ := wf.path i key v hi hget
  subst heq
  exact ht_get_loop_hit s cap key v n (homeIndex cap key) cap
    (homeIndex_lt wf.hpos key) hn (wf_badmatch s wf hn hget hocc) hget

/-- `ht_get` probe loop returns `NULL` for a key that is not stored, as
long as some slot is empty. -/
lemma ht_get_loop_missing (s : Slots) {cap : Nat} (wf : WF s cap)
    {key : Key} (habs : ¬ HasKey s key)
    (hempty : ∃ i, i < cap ∧ s.getD i none = none) :
    ht_get_loop s cap key (homeIndex cap key) cap = some 0 := by
  have hh := homeIndex_lt wf.hpos key
  obtain ⟨n, hn, hnone, hocc⟩ := first_empty_from s hh hempty
  refine ht_get_loop_empty s cap key n (homeIndex cap key) cap hh hn ?_ hnone
  intro m hm
  obtain ⟨⟨k1, v1⟩, he⟩ := Option.ne_none_iff_exists'.mp (hocc m hm)
  refine ⟨(k1, v1), he, ?_⟩
  intro heq
  simp only at heq
  subst heq
  refine habs ⟨v1, (homeIndex cap k1 + m) % cap, ?_, he⟩
  rw [wf.hlen]
  exact Nat.mod_lt _ wf.hpos

/-- Writing an occupied slot keeps every occupied slot occupied. -/
lemma set_some_occ (s : Slots) (i : Nat) (p : Key × Nat) (j : Nat)
    (h : s.getD j none ≠ none) : (s.set i (some p)).getD j none ≠ none := by
  by_cases hij : i = j
  · subst hij
    by_cases hi : i < s.length
    · rw [getD_set_self s i (some p) hi]
      simp
    · exact absurd (getD_ge_length s i (by omega)) h
  · rw [getD_set_ne s i j (some p) hij]
    exact h

/-- `ht_set_entry` on a stored key (well-formed array): overwrites the
value in place, no duplication, returns the stored key. -/
lemma ht_set_entry_found (s : Slots) {cap : Nat} (wf : WF s cap)
    {key : Key} {v0 : Nat} {i : Nat} (hi : i < cap)
    (hget : s.getD i none = some (key, v0)) (value : Nat) (pl al : Bool) :
    ht_set_entry s cap key value pl al
      = some (some (key, s.set i (some (key, value)), false)) := by
  obtain ⟨n, hn, heq, hocc⟩ := wf.path i key v0 hi hget
  subst heq
  exact ht_set_entry_loop_hit s cap key value v0 pl al n (homeIndex cap key)
    cap (homeIndex_lt wf.hpos key) hn (wf_badmatch s wf hn hget hocc) hget

/-- `ht_set_entry` on an absent key (well-formed array with an empty
slot): the probe reaches the first empty slot on the key's probe path. -/
lemma ht_set_entry_missing (s : Slots) {cap : Nat} (wf : WF s cap)
    {key : Key} (habs : ¬ HasKey s key)
    (hempty : ∃ i, i < cap ∧ s.getD i none = none) (value : Nat)
    (pl al : Bool) :
    ∃ n, n < cap ∧ s.getD ((homeIndex cap key + n) % cap) none = none ∧
      (∀ m, m < n → s.getD ((homeIndex cap key + m) % cap) none ≠ none) ∧
      ht_set_entry s cap key value pl al
        = (if pl then
             if al then
               some (some (key,
                 s.set ((homeIndex cap key + n) % cap) (some (key, value)),
                 true))
             else some none
           else
             some (some (key,
               s.set ((homeIndex cap key + n) % cap) (some (key, value)),
               false))) := by
  have hh := homeIndex_lt wf.hpos key
  obtain ⟨n, hn, hnone, hocc⟩ := first_empty_from s hh hempty
  refine ⟨n, hn, hnone, hocc, ?_⟩
  refine ht_set_entry_loop_empty s cap key value pl al n (homeIndex cap key)
    cap hh hn ?_ hnone
  intro m hm
  obtain ⟨⟨k1, v1⟩, he⟩ := Option.ne_none_iff_exists'.mp (hocc m hm)
  refine ⟨(k1, v1), he, ?_⟩
  intro heq
  simp only at heq
  subst heq
  refine habs ⟨v1, (homeIndex cap k1 + m) % cap, ?_, he⟩
  rw [wf.hlen]
  exact Nat.mod_lt _ wf.hpos

/-- Overwriting the value of a stored key preserves well-formedness. -/
lemma WF_update (s : Slots) {cap : Nat} (wf : WF s cap) {key : Key}
    {v0 : Nat} {i : Nat} (hi : i < cap)
    (hget : s.getD i none = some (key, v0)) (value : Nat) :
    WF (s.set i (some (key, value))) cap := by
  have hilen : i < s.length := by rw [wf.hlen]; exact hi
  refine ⟨by rw [List.length_set]; exact wf.hlen, wf.hpos, ?_, ?_⟩
  · intro i2 j2 ki vi kj vj hi2 hj2 hgi hgj heqk
    by_cases hii : i2 = i <;> by_cases hjj : j2 = i
    · omega
    · subst hii
      rw [getD_set_self s i2 _ hilen] at hgi
      rw [getD_set_ne s i2 j2 _ (by omega)] at hgj
      obtain ⟨rfl, rfl⟩ : ki = key ∧ vi = value := by
        constructor <;> simp_all
      exact wf.nodup i2 j2 ki v0 kj vj hi hj2 hget hgj heqk
    · subst hjj
      rw [getD_set_ne s j2 i2 _ (by omega)] at hgi
      rw [getD_set_self s j2 _ hilen] at hgj
      obtain ⟨rfl, rfl⟩ : kj = key ∧ vj = value := by
        constructor <;> simp_all
      exact wf.nodup i2 j2 ki vi kj v0 hi2 hi hgi hget heqk
    · rw [getD_set_ne s i i2 _ (by omega)] at hgi
      rw [getD_set_ne s i j2 _ (by omega)] at hgj
      exact wf.nodup i2 j2 ki vi kj vj hi2 hj2 hgi hgj heqk
  · intro i2 k2 v2 hi2 hg2
    by_cases hii : i2 = i
    · subst hii
      rw [getD_set_self s i2 _ hilen] at hg2
      obtain ⟨rfl, rfl⟩ : k2 = key ∧ v2 = value := by
        constructor <;> simp_all
      obtain ⟨n, hn, heq, hocc⟩ := wf.path i2 k2 v0 hi2 hget
      exact ⟨n, hn, heq, fun m hm => set_some_occ s i2 _ _ (hocc m hm)⟩
    · rw [getD_set_ne s i i2 _ (by omega)] at hg2
      obtain ⟨n, hn, heq, hocc⟩ := wf.path i2 k2 v2 hi2 hg2
      exact ⟨n, hn, heq, fun m hm => set_some_occ s i _ _ (hocc m hm)⟩

/-- Filling the first empty slot on the probe path of an absent key
preserves well-formedness. -/
lemma WF_insert (s : Slots) {cap : Nat} (wf : WF s cap) {key : Key}
    (habs : ¬ HasKey s key) {n : Nat} (hn : n < cap)
    (hnone : s.getD ((homeIndex cap key + n) % cap) none = none)
    (hocc : ∀ m, m < n → s.getD ((homeIndex cap key + m) % cap) none ≠ none)
    (value : Nat) :
    WF (s.set ((homeIndex cap key + n) % cap) (some (key, value))) cap := by
  set e := (homeIndex cap key + n) % cap with hedef
  have hecap : e < cap := Nat.mod_lt _ wf.hpos
  have helen : e < s.length := by rw [wf.hlen]; exact hecap
  have habs2 : ∀ j k2 v2, j < cap → s.getD j none = some (k2, v2) →
      k2 ≠ key := by
    intro j k2 v2 hj hg hk
    subst hk
    exact habs ⟨v2, j, by rw [wf.hlen]; exact hj, hg⟩
  refine ⟨by rw [List.length_set]; exact wf.hlen, wf.hpos, ?_, ?_⟩
  · intro i2 j2 ki vi kj vj hi2 hj2 hgi hgj heqk
    by_cases hii : i2 = e <;> by_cases hjj : j2 = e
    · omega
    · subst hii
      rw [getD_set_self s e _ helen] at hgi
      rw [getD_set_ne s e j2 _ (by omega)] at hgj
      obtain ⟨rfl, rfl⟩ : ki = key ∧ vi = value := by
        constructor <;> simp_all
      exact absurd heqk.symm (habs2 j2 kj vj hj2 hgj)
    · subst hjj
      rw [getD_set_ne s e i2 _ (by omega)] at hgi
      rw [getD_set_self s e _ helen] at hgj
      obtain ⟨rfl, rfl⟩ : kj = key ∧ vj = value := by
        constructor <;> simp_all
      exact absurd heqk (habs2 i2 ki vi hi2 hgi)
    · rw [getD_set_ne s e i2 _ (by omega)] at hgi
      rw [getD_set_ne s e j2 _ (by omega)] at hgj
      exact wf.nodup i2 j2 ki vi kj vj hi2 hj2 hgi hgj heqk
  · intro i2 k2 v2 hi2 hg2
    by_cases hii : i2 = e
    · subst hii
      rw [getD_set_self s e _ helen] at hg2
      obtain ⟨rfl, rfl⟩ : k2 = key ∧ v2 = value := by
        constructor <;> simp_all
      exact ⟨n, hn, hedef.symm, fun m hm => set_some_occ s _ _ _ (hocc m hm)⟩
    · rw [getD_set_ne s e i2 _ (by omega)] at hg2
      obtain ⟨n2, hn2, heq2, hocc2⟩ := wf.path i2 k2 v2 hi2 hg2
      exact ⟨n2, hn2, heq2, fun m hm => set_some_occ s e _ _ (hocc2 m hm)⟩

/-- Stored pairs after a value overwrite. -/
lemma hasPair_update_iff (s : Slots) {cap : Nat} (wf : WF s cap)
    {key : Key} {v0 : Nat} {i : Nat} (hi : i < cap)
    (hget : s.getD i none = some (key, v0)) (value : Nat) (k2 : Key)
    (v2 : Nat) :
    HasPair (s.set i (some (key, value))) k2 v2 ↔
      ((k2, v2) = (key, value) ∨ (k2 ≠ key ∧ HasPair s k2 v2)) := by
  have hilen : i < s.length := by rw [wf.hlen]; exact hi
  constructor
  · rintro ⟨j, hj, hgj⟩
    rw [List.length_set] at hj
    by_cases hjj : j = i
    · subst hjj
      rw [getD_set_self s j _ hilen] at hgj
      left
      simp_all
    · rw [getD_set_ne s i j _ (by omega)] at hgj
      right
      refine ⟨?_, j, hj, hgj⟩
      intro hk
      subst hk
      exact hjj (wf.nodup j i k2 v2 k2 v0 (wf.hlen ▸ hj) hi hgj hget rfl)
  · rintro (heq | ⟨hne, j, hj, hgj⟩)
    · obtain ⟨rfl, rfl⟩ : k2 = key ∧ v2 = value := by
        constructor <;> simp_all
      exact ⟨i, by rw [List.length_set]; exact hilen,
        getD_set_self s i _ hilen⟩
    · have hjne : j ≠ i := by
        intro hk
        subst hk
        rw [hget] at hgj
        exact hne (by simp_all)
      exact ⟨j, by rw [List.length_set]; exact hj,
        by rw [getD_set_ne s i j _ (by omega)]; exact hgj⟩

/-- Stored pairs after filling an empty slot. -/
lemma hasPair_insert_iff (s : Slots) {e : Nat} (he : e < s.length)
    (hnone : s.getD e none = none) (key : Key) (value : Nat) (k2 : Key)
    (v2 : Nat) :
    HasPair (s.set e (some (key, value))) k2 v2 ↔
      ((k2, v2) = (key, value) ∨ HasPair s k2 v2) := by
  constructor
  · rintro ⟨j, hj, hgj⟩
    rw [List.length_set] at hj
    by_cases hjj : j = e
    · subst hjj
      rw [getD_set_self s j _ he] at hgj
      left
      simp_all
    · rw [getD_set_ne s e j _ (by omega)] at hgj
      exact Or.inr ⟨j, hj, hgj⟩
  · rintro (heq | ⟨j, hj, hgj⟩)
    · obtain ⟨rfl, rfl⟩ : k2 = key ∧ v2 = value := by
        constructor <;> simp_all
      exact ⟨e, by rw [List.length_set]; exact he, getD_set_self s e _ he⟩
    · have hjne : j ≠ e := by
        intro hk
        subst hk
        rw [hnone] at hgj
        exact Option.noConfusion hgj
      exact ⟨j, by rw [List.length_set]; exact hj,
        by rw [getD_set_ne s e j _ (by omega)]; exact hgj⟩

/-- Overwriting an occupied slot keeps the occupied-slot count. -/
lemma occCount_set_occupied :
    ∀ (s : Slots) (i : Nat) (p0 p : Key × Nat),
    s.getD i none = some p0 → occCount (s.set i (some p)) = occCount s := by
  intro s
  induction s with
  | nil => intro i p0 p h; simp at h
  | cons x xs ih =>
    intro i p0 p h
    cases i with
    | zero =>
      simp only [List.getD_cons_zero] at h
      subst h
      simp [occCount]
    | succ j =>
      simp only [List.getD_cons_succ] at h
      have := ih j p0 p h
      cases x <;> simp_all [occCount]

/-- Filling an empty slot increments the occupied-slot count. -/
lemma occCount_set_empty :
    ∀ (s : Slots) (i : Nat) (p : Key × Nat), i < s.length →
    s.getD i none = none → occCount (s.set i (some p)) = occCount s + 1 := by
  intro s
  induction s with
  | nil => intro i p h; simp at h
  | cons x xs ih =>
    intro i p hlen h
    cases i with
    | zero =>
      simp only [List.getD_cons_zero] at h
      subst h
      simp [occCount]
    | succ j =>
      simp only [List.getD_cons_succ] at h
      have := ih j p (by simpa using hlen) h
      cases x <;> simp_all [occCount]

/-- A not-fully-occupied array has an empty slot. -/
lemma exists_empty (s : Slots) (h : occCount s < s.length) :
    ∃ i, i < s.length ∧ s.getD i none = none := by
  induction s with
  | nil => simp at h
  | cons x xs ih =>
    cases x with
    | none => exact ⟨0, by simp, by simp⟩
    | some p =>
      have : occCount xs < xs.length := by
        simp only [occCount, List.filterMap_cons, id, List.length_cons] at h ⊢
        omega
      obtain ⟨i, hi, hget⟩ := ih this
      exact ⟨i + 1, by simp [hi], by simpa using hget⟩

lemma occCount_le_length (s : Slots) : occCount s ≤ s.length :=
  List.length_filterMap_le id s

lemma WF_replicate (cap : Nat) (h : 0 < cap) :
    WF (List.replicate cap (none : Slot)) cap := by
  refine ⟨by simp, h, ?_, ?_⟩
  · intro i j ki vi kj vj hi hj hgi
    rw [getD_replicate] at hgi
    exact absurd hgi (by simp)
  · intro i k v hi hgi
    rw [getD_replicate] at hgi
    exact absurd hgi (by simp)

lemma occCount_replicate (cap : Nat) :
    occCount (List.replicate cap (none : Slot)) = 0 := by
  induction cap with
  | zero => simp [occCount]
  | succ n ih =>
    rw [List.replicate]
    simp only [occCount, List.filterMap_cons] at ih ⊢
    exact ih

lemma not_hasKey_replicate (cap : Nat) (k : Key) :
    ¬ HasKey (List.replicate cap (none : Slot)) k := by
  rintro ⟨v, i, hi, hget⟩
  rw [getD_replicate] at hget
  exact Option.noConfusion hget

/-- Positional key-uniqueness gives list-level `Nodup` of the stored keys. -/
lemma nodup_keys_aux :
    ∀ s : Slots,
    (∀ i j ki vi kj vj, i < s.length → j < s.length →
      s.getD i none = some (ki, vi) → s.getD j none = some (kj, vj) →
      ki = kj → i = j) →
    ((s.filterMap id).map Prod.fst).Nodup := by
  intro s
  induction s with
  | nil => intro _; simp
  | cons x xs ih =>
    intro hnd
    have htail : ((xs.filterMap id).map Prod.fst).Nodup := by
      refine ih ?_
      intro i j ki vi kj vj hi hj hgi hgj heq
      have := hnd (i + 1) (j + 1) ki vi kj vj (by simpa using hi)
        (by simpa using hj) (by simpa using hgi) (by simpa using hgj) heq
      omega
    cases x with
    | none => simpa [List.filterMap_cons] using htail
    | some p =>
      simp only [List.filterMap_cons, id, List.map_cons, List.nodup_cons]
      refine ⟨?_, htail⟩
      intro hmem
      obtain ⟨⟨k2, v2⟩, hp, hk⟩ := List.mem_map.mp hmem
      simp only at hk
      subst hk
      have hpair : HasPair xs p.1 v2 := (hasPair_iff_mem xs p.1 v2).mpr hp
      obtain ⟨j, hj, hgj⟩ := hpair
      have := hnd 0 (j + 1) p.1 p.2 p.1 v2 (by simp) (by simpa using hj)
        (by simp) (by simpa using hgj) rfl
      omega

lemma ht_expand_copy_cons_none (c : Nat) (rest : Slots) (acc : Slots) :
    ht_expand_copy c (none :: rest) (some acc)
      = ht_expand_copy c rest (some acc) := rfl

lemma ht_expand_copy_cons_some (c : Nat) (rest : Slots) (acc : Slots)
    (k : Key) (v : Nat) :
    ht_expand_copy c (some (k, v) :: rest) (some acc)
      = ht_expand_copy c rest
          (match ht_set_entry acc c k v false true with
           | some (some (_, s2, _)) => some s2
           | _ => none) := rfl

/-- The rehashing fold of `ht_expand`: inserting a list of distinct,
absent keys into a well-formed array with enough room succeeds and yields
a well-formed array holding exactly the old and the inserted pairs. -/
lemma ht_expand_copy_spec :
    ∀ (olds : Slots) (acc : Slots) (cap2 : Nat), WF acc cap2 →
    occCount acc + occCount olds ≤ cap2 →
    (∀ k v, (k, v) ∈ olds.filterMap id → ¬ HasKey acc k) →
    ((olds.filterMap id).map Prod.fst).Nodup →
    ∃ s2, ht_expand_copy cap2 olds (some acc) = some s2 ∧ WF s2 cap2 ∧
      occCount s2 = occCount acc + occCount olds ∧
      (∀ k v, HasPair s2 k v ↔
        (HasPair acc k v ∨ (k, v) ∈ olds.filterMap id)) := by
  intro olds
  induction olds with
  | nil =>
    intro acc cap2 wf hroom habs hnd
    refine ⟨acc, rfl, wf, by simp [occCount], ?_⟩
    intro k v
    simp
  | cons x rest ih =>
    intro acc cap2 wf hroom habs hnd
    cases x with
    | none =>
      rw [ht_expand_copy_cons_none]
      have hocc : occCount (none :: rest) = occCount rest := by
        simp [occCount, List.filterMap_cons]
      obtain ⟨s2, hcopy, hwf2, hocc2, hpairs⟩ := ih acc cap2 wf
        (by rw [hocc] at hroom; exact hroom)
        (fun k v hm => habs k v (by simpa [List.filterMap_cons] using hm))
        (by simpa [List.filterMap_cons] using hnd)
      refine ⟨s2, hcopy, hwf2, by rw [hocc2, hocc], ?_⟩
      intro k v
      rw [hpairs k v]
      simp [List.filterMap_cons]
    | some p =>
      obtain ⟨k, v⟩ := p
      have hmemhead : (k, v) ∈ (some (k, v) :: rest).filterMap id := by
        simp [List.filterMap_cons]
      have habsk : ¬ HasKey acc k := habs k v hmemhead
      have hoccc : occCount (some (k, v) :: rest) = occCount rest + 1 := by
        simp [occCount, List.filterMap_cons]
      have hlt : occCount acc < cap2 := by omega
      have hempty : ∃ i, i < cap2 ∧ acc.getD i none = none := by
        obtain ⟨i, hi, hg⟩ := exists_empty acc (by rw [wf.hlen]; exact hlt)
        exact ⟨i, by rw [← wf.hlen]; exact hi, hg⟩
      obtain ⟨n, hn, hnone, hoccp, hentry⟩ :=
        ht_set_entry_missing acc wf habsk hempty v false true
      simp only [if_neg (by simp : ¬ (false : Bool) = true)] at hentry
      rw [ht_expand_copy_cons_some, hentry]
      set pos := (homeIndex cap2 k + n) % cap2 with hposdef
      have hposlen : pos < acc.length := by
        rw [wf.hlen]
        exact Nat.mod_lt _ wf.hpos
      set acc2 := acc.set pos (some (k, v)) with hacc2
      have hwf2 : WF acc2 cap2 := WF_insert acc wf habsk hn hnone hoccp v
      have hocc2 : occCount acc2 = occCount acc + 1 :=
        occCount_set_empty acc pos (k, v) hposlen hnone
      have hndparts := hnd
      simp only [List.filterMap_cons, id, List.map_cons,
        List.nodup_cons] at hndparts
      have hkeysnd : ((rest.filterMap id).map Prod.fst).Nodup := hndparts.2
      have hknotin : k ∉ (rest.filterMap id).map Prod.fst := hndparts.1
      have hpair2 : ∀ k2 v2, HasPair acc2 k2 v2 ↔
          ((k2, v2) = (k, v) ∨ HasPair acc k2 v2) :=
        hasPair_insert_iff acc hposlen hnone k v
      have habs3 : ∀ k2 v2, (k2, v2) ∈ rest.filterMap id →
          ¬ HasKey acc2 k2 := by
        intro k2 v2 hm hk2
        obtain ⟨v3, hp3⟩ := hk2
        rcases (hpair2 k2 v3).mp hp3 with heq | hp4
        · obtain ⟨rfl, rfl⟩ : k2 = k ∧ v3 = v := by
            constructor <;> simp_all
          exact hknotin (List.mem_map.mpr ⟨(k2, v2), hm, rfl⟩)
        · exact habs k2 v2 (by simp [List.filterMap_cons, hm]) ⟨v3, hp4⟩
      obtain ⟨s2, hcopy, hwf3, hocc3, hpairs3⟩ := ih acc2 cap2 hwf2
        (by omega) habs3 hkeysnd
      refine ⟨s2, hcopy, hwf3, by rw [hocc3, hocc2]; omega, ?_⟩
      intro k2 v2
      rw [hpairs3 k2 v2]
      constructor
      · rintro (hp | hm)
        · rcases (hpair2 k2 v2).mp hp with heq | hp2
          · right
            rw [heq]
            exact hmemhead
          · exact Or.inl hp2
        · right
          simp [List.filterMap_cons, hm]
      · rintro (hp | hm)
        · exact Or.inl ((hpair2 k2 v2).mpr (Or.inr hp))
        · simp only [List.filterMap_cons, id, List.mem_cons] at hm
          rcases hm with heq | hm2
          · exact Or.inl ((hpair2 k2 v2).mpr (Or.inl heq))
          · exact Or.inr hm2

lemma ht_expand_alloc_fail (t : Table) : ht_expand t false = some none := by
  simp only [ht_expand]
  split
  · rfl
  · rfl

lemma ht_expand_overflow (t : Table) (aE : Bool)
    (h : t.capacity * 2 % U64 < t.capacity) : ht_expand t aE = some none := by
  simp only [ht_expand, if_pos h]

/-- List-level `Nodup` of the stored keys, from well-formedness. -/
lemma nodup_keys_of_WF (s : Slots) {cap : Nat} (wf : WF s cap) :
    ((s.filterMap id).map Prod.fst).Nodup := by
  refine nodup_keys_aux s ?_
  intro i j ki vi kj vj hi hj hgi hgj heq
  exact wf.nodup i j ki vi kj vj (wf.hlen ▸ hi) (wf.hlen ▸ hj) hgi hgj heq

/-- A successful `ht_expand` (capacity below 2^64): doubles the capacity,
keeps the length, and preserves exactly the stored pairs. -/
lemma ht_expand_success_spec (t t2 : Table) (aE : Bool)
    (wf : WF t.entries t.capacity) (hcap : t.capacity < U64)
    (h : ht_expand t aE = some (some t2)) :
    t2.capacity = 2 * t.capacity ∧ t2.length = t.length ∧
    WF t2.entries t2.capacity ∧
    occCount t2.entries = occCount t.entries ∧
    (∀ k v, HasPair t2.entries k v ↔ HasPair t.entries k v) := by
  by_cases hov : t.capacity * 2 % U64 < t.capacity
  · rw [ht_expand_overflow t aE hov] at h
    exact absurd h (by simp)
  cases aE with
  | false =>
    rw [ht_expand_alloc_fail] at h
    exact absurd h (by simp)
  | true =>
    have h2 : t.capacity * 2 < U64 := by
      simp only [U64] at hov hcap ⊢
      omega
    have hmod : t.capacity * 2 % U64 = t.capacity * 2 := Nat.mod_eq_of_lt h2
    have hpos2 : 0 < t.capacity * 2 := by
      have := wf.hpos
      omega
    obtain ⟨s2, hcopy, hwf2, hocc2, hpairs2⟩ := ht_expand_copy_spec
      t.entries (List.replicate (t.capacity * 2) none) (t.capacity * 2)
      (WF_replicate _ hpos2)
      (by
        rw [occCount_replicate]
        have := occCount_le_length t.entries
        rw [wf.hlen] at this
        omega)
      (fun k v _ => not_hasKey_replicate _ k)
      (nodup_keys_of_WF t.entries wf)
    rw [hmod] at hov
    simp only [ht_expand, hmod, hcopy] at h
    rw [if_neg hov] at h
    simp only [if_true, Option.some.injEq] at h
    subst h
    refine ⟨?_, rfl, hwf2, ?_, ?_⟩
    · show t.capacity * 2 = 2 * t.capacity
      omega
    · rw [occCount_replicate] at hocc2
      show occCount s2 = occCount t.entries
      omega
    · intro k v
      show HasPair s2 k v ↔ HasPair t.entries k v
      rw [hpairs2 k v, ← hasPair_iff_mem t.entries k v]
      have : ¬ HasPair (List.replicate (t.capacity * 2) none) k v := by
        intro hp
        exact not_hasKey_replicate _ k ⟨v, hp⟩
      tauto

/-- `ht_expand` never exhausts its probe fuel on a well-formed table. -/
lemma ht_expand_ne_none (t : Table) (aE : Bool)
    (wf : WF t.entries t.capacity) : ht_expand t aE ≠ none := by
  by_cases hov : t.capacity * 2 % U64 < t.capacity
  · rw [ht_expand_overflow t aE hov]
    simp
  cases aE with
  | false =>
    rw [ht_expand_alloc_fail]
    simp
  | true =>
    have hpos2 : 0 < t.capacity * 2 % U64 := by
      have := wf.hpos
      omega
    obtain ⟨s2, hcopy, _, _, _⟩ := ht_expand_copy_spec
      t.entries (List.replicate (t.capacity * 2 % U64) none)
      (t.capacity * 2 % U64) (WF_replicate _ hpos2)
      (by
        rw [occCount_replicate]
        have := occCount_le_length t.entries
        rw [wf.hlen] at this
        omega)
      (fun k v _ => not_hasKey_replicate _ k)
      (nodup_keys_of_WF t.entries wf)
    simp only [ht_expand, if_neg hov, if_pos rfl]
    rw [hcopy]
    simp

/-- The state invariant of a reachable table: well-formed entries, `length`
counts the occupied slots, load factor at most 1/2, capacity a power of
two between 2^4 and 2^63, and no stored `NULL` value. -/
structure TableInv (t : Table) : Prop where
  wf : WF t.entries t.capacity
  len_eq : t.length = occCount t.entries
  load : t.length ≤ t.capacity / 2
  cap_pow : ∃ j, 4 ≤ j ∧ j ≤ 63 ∧ t.capacity = 2 ^ j
  vals : ValsOk t.entries

lemma TableInv_create : TableInv ht_create := by
  refine ⟨WF_replicate 16 (by norm_num), ?_, ?_, ⟨4, by norm_num, by norm_num, rfl⟩, ?_⟩
  · rw [ht_create]
    simp [occCount_replicate]
  · simp [ht_create]
  · intro k v hp
    exact absurd ⟨v, hp⟩ (not_hasKey_replicate 16 k)

lemma TableInv_cap_lt (t : Table) (inv : TableInv t) : t.capacity < U64 := by
  obtain ⟨j, _, hj63, hcap⟩ := inv.cap_pow
  have : (2 : Nat) ^ j ≤ 2 ^ 63 := Nat.pow_le_pow_right (by norm_num) hj63
  have h64 : (2 : Nat) ^ 63 < U64 := by norm_num [U64]
  omega

lemma TableInv_occ_lt (t : Table) (inv : TableInv t) : occCount t.entries < t.capacity := by
  obtain ⟨j, hj4, _, hcap⟩ := inv.cap_pow
  have h16 : 16 ≤ t.capacity := by
    rw [hcap]
    calc (16 : Nat) = 2 ^ 4 := by norm_num
      _ ≤ 2 ^ j := Nat.pow_le_pow_right (by norm_num) hj4
  have := inv.load
  have := inv.len_eq
  omega

lemma TableInv_exists_empty (t : Table) (inv : TableInv t) :
    ∃ i, i < t.capacity ∧ t.entries.getD i none = none := by
  obtain ⟨i, hi, hg⟩ := exists_empty t.entries
    (by rw [inv.wf.hlen]; exact TableInv_occ_lt t inv)
  exact ⟨i, by rw [← inv.wf.hlen]; exact hi, hg⟩

/-- Specification of `ht_get` on an invariant-satisfying table: stored
pairs are found, absent keys give `NULL` (`some 0`). -/
lemma ht_get_spec (t : Table) (inv : TableInv t) (k : Key) :
    (∀ v, HasPair t.entries k v → ht_get t k = some v) ∧
    (¬ HasKey t.entries k → ht_get t k = some 0) := by
  constructor
  · rintro v ⟨i, hi, hget⟩
    exact ht_get_loop_found t.entries inv.wf (inv.wf.hlen ▸ hi) hget
  · intro habs
    exact ht_get_loop_missing t.entries inv.wf habs (TableInv_exists_empty t inv)

lemma TableInv_cap16 (t : Table) (inv : TableInv t) : 16 ≤ t.capacity := by
  obtain ⟨j, hj4, _, hcap⟩ := inv.cap_pow
  rw [hcap]
  calc (16 : Nat) = 2 ^ 4 := by norm_num
    _ ≤ 2 ^ j := Nat.pow_le_pow_right (by norm_num) hj4

/-- The growth step at the top of `ht_set` (ht.c lines 156-162): either it
fails leaving the table untouched, or it yields a table with the same
contents whose capacity doubled exactly when the load-factor trigger
`length >= capacity / 2` fired. -/
lemma grow_cases (t : Table) (aE : Bool) (inv : TableInv t) :
    (if t.capacity / 2 ≤ t.length then ht_expand t aE else some (some t))
      = some none ∨
    ∃ t2,
      (if t.capacity / 2 ≤ t.length then ht_expand t aE else some (some t))
        = some (some t2) ∧
      WF t2.entries t2.capacity ∧
      t2.length = t.length ∧
      t2.length = occCount t2.entries ∧
      ValsOk t2.entries ∧
      (∃ j, 4 ≤ j ∧ j ≤ 63 ∧ t2.capacity = 2 ^ j) ∧
      (∀ k2 v2, HasPair t2.entries k2 v2 ↔ HasPair t.entries k2 v2) ∧
      ((t2.capacity = t.capacity ∧ ¬ t.capacity / 2 ≤ t.length) ∨
       (t2.capacity = 2 * t.capacity ∧ t.capacity / 2 ≤ t.length)) := by
  by_cases htr : t.capacity / 2 ≤ t.length
  · rw [if_pos htr]
    cases hexp : ht_expand t aE with
    | none => exact absurd hexp (ht_expand_ne_none t aE inv.wf)
    | some o =>
      cases o with
      | none => exact Or.inl rfl
      | some t2 =>
        obtain ⟨hcap2, hlen2, hwf2, hocc2, hpairs2⟩ :=
          ht_expand_success_spec t t2 aE inv.wf (TableInv_cap_lt t inv) hexp
        refine Or.inr ⟨t2, rfl, hwf2, hlen2, ?_, ?_, ?_, hpairs2,
          Or.inr ⟨hcap2, htr⟩⟩
        · rw [hlen2, hocc2]
          exact inv.len_eq
        · intro k2 v2 hp
          exact inv.vals k2 v2 ((hpairs2 k2 v2).mp hp)
        · obtain ⟨j, hj4, hj63, hcapj⟩ := inv.cap_pow
          by_cases hj : j = 63
          · subst hj
            have hov : t.capacity * 2 % U64 < t.capacity := by
              have hz : t.capacity * 2 % U64 = 0 := by
                rw [hcapj]
                norm_num [U64]
              rw [hz]
              exact inv.wf.hpos
            rw [ht_expand_overflow t aE hov] at hexp
            exact absurd hexp (by simp)
          · refine ⟨j + 1, by omega, by omega, ?_⟩
            rw [hcap2, hcapj, pow_succ]
            ring
  · rw [if_neg htr]
    exact Or.inr ⟨t, rfl, inv.wf, rfl, inv.len_eq, inv.vals, inv.cap_pow,
      fun _ _ => Iff.rfl, Or.inl ⟨rfl, htr⟩⟩

lemma ht_set_unfold_growfail (t : Table) (k : Key) (v : Nat) (aE aD : Bool)
    (hv : v ≠ 0)
    (hg : (if t.capacity / 2 ≤ t.length then ht_expand t aE
           else some (some t)) = some none) :
    ht_set t k v aE aD = some (none, t) := by
  simp only [ht_set, if_neg hv]
  rw [hg]

lemma ht_set_unfold_grow (t : Table) (k : Key) (v : Nat) (aE aD : Bool)
    (hv : v ≠ 0) (t2 : Table)
    (hg : (if t.capacity / 2 ≤ t.length then ht_expand t aE
           else some (some t)) = some (some t2)) :
    ht_set t k v aE aD =
      match ht_set_entry t2.entries t2.capacity k v true aD with
      | none => none
      | some none => some (none, t2)
      | some (some (ret, s, inc)) =>
        some (some ret,
          { entries := s, capacity := t2.capacity,
            length := t2.length + (if inc then 1 else 0) }) := by
  simp only [ht_set, if_neg hv]
  rw [hg]

/-- Full case analysis of `ht_set` with a non-`NULL` value on an
invariant-satisfying table: the call never exhausts its probe fuel; on
success it returns the stored key and updates exactly the one binding; on
failure it returns `NULL` with contents and length untouched; the final
capacity is the old one or its double, doubled whenever the load trigger
fired and the call succeeded; and with a failing `strdup` a fresh key is
never stored. -/
lemma ht_set_cases (t : Table) (k : Key) (v : Nat) (aE aD : Bool)
    (inv : TableInv t) (hv : v ≠ 0) :
    ∃ r t3, ht_set t k v aE aD = some (r, t3) ∧ TableInv t3 ∧
      (t3.capacity = t.capacity ∨ t3.capacity = 2 * t.capacity) ∧
      ((r = none ∧ t3.length = t.length ∧
         (∀ k2 v2, HasPair t3.entries k2 v2 ↔ HasPair t.entries k2 v2)) ∨
       (r = some k ∧
         (∀ k2 v2, HasPair t3.entries k2 v2 ↔
           ((k2, v2) = (k, v) ∨ (k2 ≠ k ∧ HasPair t.entries k2 v2))) ∧
         ((HasKey t.entries k ∧ t3.length = t.length) ∨
          (¬ HasKey t.entries k ∧ t3.length = t.length + 1)))) ∧
      (t.capacity / 2 ≤ t.length → r ≠ none →
        t3.capacity = 2 * t.capacity) ∧
      (aD = false → ¬ HasKey t.entries k → r = none) := by
  have h16 := TableInv_cap16 t inv
  rcases grow_cases t aE inv with hfail | ⟨t2, hg, hwf2, hlen2, hleneq2,
    hvals2, hpow2, hpairs2, hcapd⟩
  · rw [ht_set_unfold_growfail t k v aE aD hv hfail]
    refine ⟨none, t, rfl, inv, Or.inl rfl,
      Or.inl ⟨rfl, rfl, fun _ _ => Iff.rfl⟩, ?_, fun _ _ => rfl⟩
    intro _ hr
    exact absurd rfl hr
  · rw [ht_set_unfold_grow t k v aE aD hv t2 hg]
    have hcap16 : 16 ≤ t2.capacity := by
      rcases hcapd with ⟨he, _⟩ | ⟨he, _⟩ <;> omega
    have hload2 : t2.length ≤ t2.capacity / 2 := by
      have := inv.load
      rcases hcapd with ⟨he, hnt⟩ | ⟨he, htr⟩ <;> omega
    by_cases hkey : HasKey t.entries k
    · obtain ⟨v0, hp0⟩ := hkey
      obtain ⟨i, hi, hget⟩ := (hpairs2 k v0).mpr hp0
      have hicap : i < t2.capacity := hwf2.hlen ▸ hi
      have hentry := ht_set_entry_found t2.entries hwf2 hicap hget v true aD
      rw [hentry]
      refine ⟨some k, ⟨t2.entries.set i (some (k, v)), t2.capacity,
        t2.length⟩, rfl, ?_, ?_, ?_, ?_, ?_⟩
      · refine ⟨WF_update t2.entries hwf2 hicap hget v, ?_, hload2, hpow2, ?_⟩
        · show t2.length = occCount (t2.entries.set i (some (k, v)))
          rw [occCount_set_occupied t2.entries i (k, v0) (k, v) hget]
          exact hleneq2
        · intro k2 v2 hp
          rcases (hasPair_update_iff t2.entries hwf2 hicap hget v k2 v2).mp hp
            with heq | ⟨_, hp2⟩
          · obtain ⟨rfl, rfl⟩ : k2 = k ∧ v2 = v := by
              constructor <;> simp_all
            exact hv
          · exact hvals2 k2 v2 hp2
      · show t2.capacity = t.capacity ∨ t2.capacity = 2 * t.capacity
        rcases hcapd with ⟨he, _⟩ | ⟨he, _⟩
        · exact Or.inl he
        · exact Or.inr he
      · refine Or.inr ⟨rfl, ?_, Or.inl ⟨⟨v0, hp0⟩, hlen2⟩⟩
        intro k2 v2
        show HasPair (t2.entries.set i (some (k, v))) k2 v2 ↔ _
        rw [hasPair_update_iff t2.entries hwf2 hicap hget v k2 v2,
          hpairs2 k2 v2]
      · intro htr _
        show t2.capacity = 2 * t.capacity
        rcases hcapd with ⟨_, hnt⟩ | ⟨he, _⟩
        · exact absurd htr hnt
        · exact he
      · intro _ habs
        exact absurd ⟨v0, hp0⟩ habs
    · have habs2 : ¬ HasKey t2.entries k := by
        rintro ⟨v2, hp⟩
        exact hkey ⟨v2, (hpairs2 k v2).mp hp⟩
      have hempty2 : ∃ i, i < t2.capacity ∧ t2.entries.getD i none = none := by
        obtain ⟨i, hi, hgi⟩ := exists_empty t2.entries (by
          rw [hwf2.hlen]
          omega)
        exact ⟨i, hwf2.hlen ▸ hi, hgi⟩
      obtain ⟨n, hn, hnone, hoccp, hentry⟩ :=
        ht_set_entry_missing t2.entries hwf2 habs2 hempty2 v true aD
      have hposlen : (homeIndex t2.capacity k + n) % t2.capacity
          < t2.entries.length := by
        rw [hwf2.hlen]
        exact Nat.mod_lt _ hwf2.hpos
      cases aD with
      | true =>
        rw [if_pos rfl, if_pos rfl] at hentry
        rw [hentry]
        refine ⟨some k,
          ⟨t2.entries.set ((homeIndex t2.capacity k + n) % t2.capacity)
            (some (k, v)), t2.capacity, t2.length + 1⟩, rfl, ?_, ?_, ?_, ?_, ?_⟩
        · refine ⟨WF_insert t2.entries hwf2 habs2 hn hnone hoccp v, ?_, ?_,
            hpow2, ?_⟩
          · show t2.length + 1 = occCount (t2.entries.set _ (some (k, v)))
            rw [occCount_set_empty t2.entries _ (k, v) hposlen hnone]
            omega
          · show t2.length + 1 ≤ t2.capacity / 2
            have := inv.load
            rcases hcapd with ⟨he, hnt⟩ | ⟨he, htr⟩ <;> omega
          · intro k2 v2 hp
            rcases (hasPair_insert_iff t2.entries hposlen hnone k v k2 v2).mp
              hp with heq | hp2
            · obtain ⟨rfl, rfl⟩ : k2 = k ∧ v2 = v := by
                constructor <;> simp_all
              exact hv
            · exact hvals2 k2 v2 hp2
        · show t2.capacity = t.capacity ∨ t2.capacity = 2 * t.capacity
          rcases hcapd with ⟨he, _⟩ | ⟨he, _⟩
          · exact Or.inl he
          · exact Or.inr he
        · refine Or.inr ⟨rfl, ?_, Or.inr ⟨hkey, ?_⟩⟩
          · intro k2 v2
            show HasPair (t2.entries.set _ (some (k, v))) k2 v2 ↔ _
            rw [hasPair_insert_iff t2.entries hposlen hnone k v k2 v2,
              hpairs2 k2 v2]
            constructor
            · rintro (heq | hp2)
              · exact Or.inl heq
              · refine Or.inr ⟨?_, hp2⟩
                rintro rfl
                exact hkey ⟨v2, hp2⟩
            · rintro (heq | ⟨_, hp2⟩)
              · exact Or.inl heq
              · exact Or.inr hp2
          · show t2.length + 1 = t.length + 1
            omega
        · intro htr _
          show t2.capacity = 2 * t.capacity
          rcases hcapd with ⟨_, hnt⟩ | ⟨he, _⟩
          · exact absurd htr hnt
          · exact he
        · intro hfalse
          exact absurd hfalse (by simp)
      | false =>
        rw [if_pos rfl, if_neg (by simp)] at hentry
        rw [hentry]
        refine ⟨none, t2, rfl, ⟨hwf2, hleneq2, hload2, hpow2, hvals2⟩,
          ?_, Or.inl ⟨rfl, hlen2, hpairs2⟩, ?_, fun _ _ => rfl⟩
        · rcases hcapd with ⟨he, _⟩ | ⟨he, _⟩
          · exact Or.inl he
          · exact Or.inr he
        · intro _ hr
          exact absurd rfl hr

/-- `ht_set` with a `NULL` value is a rejected no-op (ht.c lines 151-154). -/
lemma ht_set_zero (t : Table) (k : Key) (aE aD : Bool) :
    ht_set t k 0 aE aD = some (none, t) := by
  simp [ht_set]

/-- Every reachable table satisfies the invariant. -/
lemma reachable_inv (t : Table) (h : Reachable t) : TableInv t := by
  induction h with
  | create => exact TableInv_create
  | @step t0 k v aE aD r t2 _ hset ih =>
    by_cases hv : v = 0
    · subst hv
      rw [ht_set_zero] at hset
      simp only [Option.some.injEq, Prod.mk.injEq] at hset
      rw [← hset.2]
      exact ih
    · obtain ⟨r2, t3, hset2, inv3, _⟩ := ht_set_cases t0 k v aE aD ih hv
      rw [hset2] at hset
      simp only [Option.some.injEq, Prod.mk.injEq] at hset
      rw [← hset.2]
      exact inv3

/-- `ht_set` never exhausts its probe fuel on an invariant table. -/
lemma ht_set_total (t : Table) (k : Key) (v : Nat) (aE aD : Bool)
    (inv : TableInv t) : ht_set t k v aE aD ≠ none := by
  by_cases hv : v = 0
  · subst hv
    rw [ht_set_zero]
    simp
  · obtain ⟨r, t3, hset, _⟩ := ht_set_cases t k v aE aD inv hv
    rw [hset]
    simp

/-- `ht_get` never exhausts its probe fuel on an invariant table. -/
lemma ht_get_total (t : Table) (k : Key) (inv : TableInv t) :
    ∃ x, ht_get t k = some x := by
  by_cases hk : HasKey t.entries k
  · obtain ⟨v, hp⟩ := hk
    exact ⟨v, (ht_get_spec t inv k).1 v hp⟩
  · exact ⟨0, (ht_get_spec t inv k).2 hk⟩

/-- Inversion of `ht_get`: the result is the stored value, or `0` for an
absent key. -/
lemma ht_get_inv (t : Table) (k : Key) (x : Nat) (inv : TableInv t)
    (h : ht_get t k = some x) :
    HasPair t.entries k x ∨ (x = 0 ∧ ¬ HasKey t.entries k) := by
  by_cases hk : HasKey t.entries k
  · obtain ⟨v, hp⟩ := hk
    rw [(ht_get_spec t inv k).1 v hp] at h
    simp only [Option.some.injEq] at h
    subst h
    exact Or.inl hp
  · rw [(ht_get_spec t inv k).2 hk] at h
    simp only [Option.some.injEq] at h
    exact Or.inr ⟨h.symm, hk⟩

/-- Recursive form of `lastVal`, carrying the default explicitly. -/
def lastValD : List (Key × Nat) → Key → Nat → Nat
  | [], _, d => d
  | (k1, v1) :: rest, k, d => lastValD rest k (if k1 = k then v1 else d)

lemma lastVal_eq_lastValD :
    ∀ (ops : List (Key × Nat)) (k : Key) (d : Nat),
    ops.foldl (fun acc p => if p.1 = k then p.2 else acc) d
      = lastValD ops k d := by
  intro ops
  induction ops with
  | nil => intro k d; rfl
  | cons p rest ih =>
    intro k d
    obtain ⟨k1, v1⟩ := p
    simp only [List.foldl_cons, lastValD]
    exact ih k _

/-- Running a list of successful `set` calls: the invariant is preserved
and `ht_get` afterwards returns the value most recently stored for each
key, falling back to the key's lookup result in the starting table. -/
lemma runSets_get :
    ∀ (ops : List (Key × Nat)) (t0 t : Table), TableInv t0 →
    runSets t0 ops = some t →
    TableInv t ∧
    ∀ k x0, ht_get t0 k = some x0 → ht_get t k = some (lastValD ops k x0) := by
  intro ops
  induction ops with
  | nil =>
    intro t0 t inv0 hrun
    simp only [runSets, Option.some.injEq] at hrun
    subst hrun
    exact ⟨inv0, fun k x0 h0 => h0⟩
  | cons p rest ih =>
    intro t0 t inv0 hrun
    obtain ⟨k1, v1⟩ := p
    by_cases hv1 : v1 = 0
    · subst hv1
      rw [runSets, ht_set_zero] at hrun
      exact absurd hrun (by simp)
    · obtain ⟨r, t3, hset, inv3, _, hres, _, _⟩ :=
        ht_set_cases t0 k1 v1 true true inv0 hv1
      rw [runSets, hset] at hrun
      rcases hres with ⟨rfl, _, _⟩ | ⟨rfl, hpairs, _⟩
      · exact absurd hrun (by simp)
      · simp only at hrun
        obtain ⟨invt, hget⟩ := ih t3 t inv3 hrun
        refine ⟨invt, ?_⟩
        intro k x0 h0
        rw [lastValD]
        refine hget k (if k1 = k then v1 else x0) ?_
        by_cases hk : k1 = k
        · rw [if_pos hk]
          subst hk
          exact (ht_get_spec t3 inv3 k1).1 v1
            ((hpairs k1 v1).mpr (Or.inl rfl))
        · rw [if_neg hk]
          rcases ht_get_inv t0 k x0 inv0 h0 with hp0 | ⟨rfl, habs0⟩
          · exact (ht_get_spec t3 inv3 k).1 x0
              ((hpairs k x0).mpr (Or.inr ⟨fun he => hk he.symm, hp0⟩))
          · refine (ht_get_spec t3 inv3 k).2 ?_
            rintro ⟨v2, hp2⟩
            rcases (hpairs k v2).mp hp2 with heq | ⟨_, hp3⟩
            · obtain ⟨rfl, rfl⟩ : k = k1 ∧ v2 = v1 := by
                constructor <;> simp_all
              exact hk rfl
            · exact habs0 ⟨v2, hp3⟩

/-- `ht_get` on a fresh table misses every key. -/
lemma ht_get_create (k : Key) : ht_get ht_create k = some 0 := by
  refine (ht_get_spec ht_create TableInv_create k).2 ?_
  intro hk
  exact not_hasKey_replicate 16 k hk

/-- Tables built by `runSets` from `ht_create` are reachable. -/
lemma runSets_reachable :
    ∀ (ops : List (Key × Nat)) (t0 t : Table), Reachable t0 →
    runSets t0 ops = some t → Reachable t := by
  intro ops
  induction ops with
  | nil =>
    intro t0 t h0 hrun
    simp only [runSets, Option.some.injEq] at hrun
    subst hrun
    exact h0
  | cons p rest ih =>
    intro t0 t h0 hrun
    obtain ⟨k1, v1⟩ := p
    rw [runSets] at hrun
    cases hset : ht_set t0 k1 v1 true true with
    | none =>
      rw [hset] at hrun
      exact absurd hrun (by simp)
    | some q =>
      obtain ⟨r, t2⟩ := q
      rw [hset] at hrun
      cases r with
      | none => exact absurd hrun (by simp)
      | some rk =>
        simp only at hrun
        exact ih t2 t (Reachable.step h0 hset) hrun

lemma getD_lt (s : Slots) (i : Nat) (h : i < s.length) :
    s.getD i none = s[i] := by
  simp [List.getD_eq_getElem?_getD, List.getElem?_eq_getElem h]

/-- When the scan loop of `ht_next` reports end-of-table, the final cursor
is at or past capacity. -/
lemma ht_next_loop_false (t : Table) :
    ∀ (fuel idx i2 : Nat), ht_next_loop t idx fuel = some (none, i2) →
    t.capacity ≤ i2 := by
  intro fuel
  induction fuel with
  | zero =>
    intro idx i2 h
    exact absurd h (by simp [ht_next_loop])
  | succ f ih =>
    intro idx i2 h
    by_cases hidx : idx < t.capacity
    · rw [ht_next_loop, if_pos hidx] at h
      cases hslot : t.entries.getD idx none with
      | some p =>
        rw [hslot] at h
        exact absurd h (by simp)
      | none =>
        rw [hslot] at h
        exact ih (idx + 1) i2 h
    · rw [ht_next_loop, if_neg hidx] at h
      simp only [Option.some.injEq, Prod.mk.injEq] at h
      omega

/-- Full characterization of one scan step of `ht_next`: it either reports
end with nothing left in the suffix, or returns the first occupied slot at
or after the cursor. -/
lemma ht_next_loop_spec (t : Table) (hlen : t.entries.length = t.capacity) :
    ∀ (fuel idx : Nat), 0 < fuel → t.capacity < idx + fuel →
    (∃ idxF, ht_next_loop t idx fuel = some (none, idxF) ∧
       t.capacity ≤ idxF ∧ (t.entries.drop idx).filterMap id = []) ∨
    (∃ j k v, idx ≤ j ∧ j < t.capacity ∧
       ht_next_loop t idx fuel = some (some (k, v), j + 1) ∧
       t.entries.getD j none = some (k, v) ∧
       (t.entries.drop idx).filterMap id
         = (k, v) :: (t.entries.drop (j + 1)).filterMap id) := by
  intro fuel
  induction fuel with
  | zero =>
    intro idx h0 h
    omega
  | succ f ih =>
    intro idx _ h
    by_cases hidx : idx < t.capacity
    · have hidxlen : idx < t.entries.length := by omega
      have hdropc : t.entries.drop idx
          = t.entries[idx] :: t.entries.drop (idx + 1) :=
        List.drop_eq_getElem_cons hidxlen
      cases hslot : t.entries.getD idx none with
      | some p =>
        obtain ⟨k, v⟩ := p
        refine Or.inr ⟨idx, k, v, le_refl idx, hidx, ?_, hslot, ?_⟩
        · rw [ht_next_loop, if_pos hidx, hslot]
        · rw [hdropc]
          rw [getD_lt t.entries idx hidxlen] at hslot
          rw [hslot]
          simp [List.filterMap_cons]
      | none =>
        have hstep : ht_next_loop t idx (f + 1)
            = ht_next_loop t (idx + 1) f := by
          rw [ht_next_loop, if_pos hidx, hslot]
        have hdropeq : (t.entries.drop idx).filterMap id
            = (t.entries.drop (idx + 1)).filterMap id := by
          rw [hdropc]
          rw [getD_lt t.entries idx hidxlen] at hslot
          rw [hslot]
          simp [List.filterMap_cons]
        rcases ih (idx + 1) (by omega) (by omega) with
          ⟨idxF, hl, hc, hfm⟩ | ⟨j, k, v, hij, hj, hl, hg, hfm⟩
        · exact Or.inl ⟨idxF, by rw [hstep]; exact hl, hc,
            by rw [hdropeq]; exact hfm⟩
        · exact Or.inr ⟨j, k, v, by omega, hj, by rw [hstep]; exact hl, hg,
            by rw [hdropeq]; exact hfm⟩
    · refine Or.inl ⟨idx, ?_, by omega, ?_⟩
      · rw [ht_next_loop, if_neg hidx]
      · rw [List.drop_eq_nil_of_le (by omega)]
        simp

/-- `ht_next` always returns (the cursor strictly increases towards
capacity, so fuel capacity + 1 suffices). -/
lemma ht_next_ne_none (it : Hti) : ht_next it ≠ none := by
  have htot : ∀ (fuel idx : Nat), 0 < fuel →
      it._table.capacity < idx + fuel →
      ∃ o i2, ht_next_loop it._table idx fuel = some (o, i2) := by
    intro fuel
    induction fuel with
    | zero => intro idx h0; omega
    | succ f ih =>
      intro idx _ h
      by_cases hidx : idx < it._table.capacity
      · cases hslot : it._table.entries.getD idx none with
        | some p =>
          exact ⟨some p, idx + 1, by rw [ht_next_loop, if_pos hidx, hslot]⟩
        | none =>
          obtain ⟨o, i2, hl⟩ := ih (idx + 1) (by omega) (by omega)
          exact ⟨o, i2, by rw [ht_next_loop, if_pos hidx, hslot]; exact hl⟩
      · exact ⟨none, idx, by rw [ht_next_loop, if_neg hidx]⟩
  obtain ⟨o, i2, hl⟩ := htot (it._table.capacity + 1) it._index
    (by omega) (by omega)
  rw [ht_next, hl]
  cases o with
  | none => simp
  | some p =>
    obtain ⟨k, v⟩ := p
    simp

/-- Driving an iterator with `ht_next` until it reports end, collecting
the exposed `key`/`value` fields of each yielded entry (with explicit
fuel; `none` = the drive did not finish within `fuel` yields). -/
def ht_items (it : Hti) : Nat → Option (List (Key × Nat))
  | 0 => none
  | fuel + 1 =>
    match ht_next it with
    | none => none
    | some (false, _) => some []
    | some (true, it2) =>
      match ht_items it2 fuel with
      | none => none
      | some rest => some ((it2.key.getD [], it2.value) :: rest)

/-- The iterator drive yields exactly the occupied slots from the cursor
on, in slot order. -/
lemma ht_items_go (t : Table) (hlen : t.entries.length = t.capacity) :
    ∀ (fuel i : Nat) (k0 : Option Key) (v0 : Nat),
    ((t.entries.drop i).filterMap id).length < fuel →
    ht_items ⟨k0, v0, t, i⟩ fuel = some ((t.entries.drop i).filterMap id) := by
  intro fuel
  induction fuel with
  | zero => intro i k0 v0 h; omega
  | succ f ih =>
    intro i k0 v0 h
    have hspec := ht_next_loop_spec t hlen (t.capacity + 1) i (by omega)
      (by omega)
    rcases hspec with ⟨idxF, hl, _, hfm⟩ | ⟨j, k, v, hij, hj, hl, hg, hfm⟩
    · rw [ht_items, ht_next, hl]
      rw [hfm]
    · rw [ht_items, ht_next, hl]
      have hrest : ht_items ⟨some k, v, t, j + 1⟩ f
          = some ((t.entries.drop (j + 1)).filterMap id) := by
        refine ih (j + 1) (some k) v ?_
        rw [hfm] at h
        simp only [List.length_cons] at h
        omega
      simp only
      rw [hrest]
      simp only [Option.getD_some, Option.some.injEq]
      rw [hfm]

/-- Updating an already-stored key never consults the `strdup` allocation:
the whole call is insensitive to the duplication oracle. -/
lemma ht_set_aD_irrelevant (t : Table) (k : Key) (v : Nat) (aE aD : Bool)
    (inv : TableInv t) (hkey : HasKey t.entries k) :
    ht_set t k v aE aD = ht_set t k v aE false := by
  by_cases hv : v = 0
  · subst hv
    rw [ht_set_zero, ht_set_zero]
  · rcases grow_cases t aE inv with hfail | ⟨t2, hg, hwf2, _, _, _, _,
      hpairs2, _⟩
    · rw [ht_set_unfold_growfail t k v aE aD hv hfail,
        ht_set_unfold_growfail t k v aE false hv hfail]
    · rw [ht_set_unfold_grow t k v aE aD hv t2 hg,
        ht_set_unfold_grow t k v aE false hv t2 hg]
      obtain ⟨v0, hp0⟩ := hkey
      obtain ⟨i, hi, hget⟩ := (hpairs2 k v0).mpr hp0
      rw [ht_set_entry_found t2.entries hwf2 (hwf2.hlen ▸ hi) hget v true aD,
        ht_set_entry_found t2.entries hwf2 (hwf2.hlen ▸ hi) hget v true false]

/-- `ht_next` on a cursor at or past capacity reports end and returns the
iterator unchanged. -/
lemma ht_next_at_end (it : Hti) (h : it._table.capacity ≤ it._index) :
    ht_next it = some (false, it) := by
  rw [ht_next]
  have hloop : ht_next_loop it._table it._index (it._table.capacity + 1)
      = some (none, it._index) := by
    rw [ht_next_loop, if_neg (by omega)]
  rw [hloop]

/-- 20 distinct one-byte keys with nonzero values: enough inserts to force
two growths (16 → 32 → 64). -/
def opsGrowth : List (Key × Nat) :=
  (List.range 20).map (fun i => ([100 + i], i + 1))

def growthTable : Table := (runSets ht_create opsGrowth).getD ht_create

/-- 8 distinct keys: fills a fresh table exactly to the load trigger
`length >= capacity / 2`. -/
def ops8 : List (Key × Nat) :=
  (List.range 8).map (fun i => ([100 + i], i + 1))

def t8 : Table := (runSets ht_create ops8).getD ht_create

/-- The table left behind by a `set` on `t8` whose growth succeeds but
whose key duplication (`strdup`) fails. -/
def t8f : Table := ((ht_set t8 [200] 1 true false).getD (none, t8)).2

/-- The table produced by updating the existing key `[100]` of `t8`. -/
def t8g : Table := ((ht_set t8 [100] 9 true true).getD (none, t8)).2

def tA : Table := ((ht_set ht_create [97] 5 true true).getD (none, ht_create)).2

def tB : Table := ((ht_set tA [97] 7 true true).getD (none, tA)).2

/-- An iterator that has already reported end on the empty table. -/
def itEnd : Hti :=
  ((ht_next (ht_iterator ht_create)).getD (false, ht_iterator ht_create)).2

/-- Claim C1: for every table built by a sequence of successful `set`
operations from `create` (including sequences long enough to force
growths), `get` returns the value most recently stored for each key, and
`NULL` (modelled `some 0`) for keys never stored. -/
theorem claim_C1 (ops : List (Key × Nat)) (t : Table)
    (h : runSets ht_create ops = some t) (k : Key) :
    ht_get t k = some (lastVal ops k) := by
  obtain ⟨invt, hget⟩ := runSets_get ops ht_create t TableInv_create h
  have hk := hget k 0 (ht_get_create k)
  rw [hk]
  simp only [lastVal, lastVal_eq_lastValD]

theorem claim_C1_witness :
    ht_get growthTable [105] = some 6 ∧ ht_get growthTable [99] = some 0 := by
  have h : runSets ht_create opsGrowth = some growthTable := by decide
  constructor
  · rw [claim_C1 opsGrowth growthTable h [105]]
    decide
  · rw [claim_C1 opsGrowth growthTable h [99]]
    decide

/-- Claim C2: setting an existing key overwrites the value in place: `get`
then returns the new value, `length` is unchanged by the second `set`, the
stored key is reused and returned (the call is insensitive to the
key-duplication allocation oracle, i.e. no new duplication happens). -/
theorem claim_C2 (t : Table) (k : Key) (v1 v2 : Nat) (aE aD : Bool)
    (r1 r2 : Key) (t1 t2 : Table) (hre : Reachable t) (hv1 : v1 ≠ 0)
    (hv2 : v2 ≠ 0) (h1 : ht_set t k v1 true true = some (some r1, t1))
    (h2 : ht_set t1 k v2 aE aD = some (some r2, t2)) :
    r2 = k ∧ ht_get t2 k = some v2 ∧ ht_length t2 = ht_length t1 ∧
    ht_set t1 k v2 aE aD = ht_set t1 k v2 aE false := by
  have inv := reachable_inv t hre
  have inv1 : TableInv t1 := reachable_inv t1 (Reachable.step hre h1)
  obtain ⟨ra, t3, hset, _, _, hres, _, _⟩ :=
    ht_set_cases t k v1 true true inv hv1
  rw [hset] at h1
  simp only [Option.some.injEq, Prod.mk.injEq] at h1
  obtain ⟨h1r, h1t⟩ := h1
  subst h1t
  rcases hres with ⟨hnone, _, _⟩ | ⟨hsome, hpairs1, _⟩
  · rw [hnone] at h1r
    exact absurd h1r (by simp)
  · have hkey1 : HasKey t3.entries k := ⟨v1, (hpairs1 k v1).mpr (Or.inl rfl)⟩
    obtain ⟨rb, t4, hsetB, inv4, _, hresB, _, _⟩ :=
      ht_set_cases t3 k v2 aE aD inv1 hv2
    rw [hsetB] at h2
    simp only [Option.some.injEq, Prod.mk.injEq] at h2
    obtain ⟨h2r, h2t⟩ := h2
    subst h2t
    rcases hresB with ⟨hnone, _, _⟩ | ⟨hsome2, hpairs2, hlen2⟩
    · rw [hnone] at h2r
      exact absurd h2r (by simp)
    · refine ⟨?_, ?_, ?_, ht_set_aD_irrelevant t3 k v2 aE aD inv1 hkey1⟩
      · rw [hsome2] at h2r
        simpa using h2r.symm
      · exact (ht_get_spec t4 inv4 k).1 v2 ((hpairs2 k v2).mpr (Or.inl rfl))
      · rcases hlen2 with ⟨_, hl⟩ | ⟨habs, _⟩
        · exact hl
        · exact absurd hkey1 habs

theorem claim_C2_witness : ht_get tB [97] = some 7 ∧
    ht_length tB = ht_length tA := by
  have h := claim_C2 ht_create [97] 5 7 true true [97] [97] tA tB
    Reachable.create (by decide) (by decide) (by decide) (by decide)
  exact ⟨h.2.1, h.2.2.1⟩

/-- Claim C3: a fresh iterator driven with `next` until it reports end
yields exactly the stored pairs of the table: as many pairs as `length`,
each matching `get`, with no duplicate keys and no extras; on an empty
table the first `next` immediately reports end. -/
theorem claim_C3 (t : Table) (hre : Reachable t) :
    ∃ l, ht_items (ht_iterator t) (t.capacity + 1) = some l ∧
      l.length = ht_length t ∧
      (∀ p, p ∈ l → ht_get t p.1 = some p.2) ∧
      (l.map Prod.fst).Nodup ∧
      (∀ k v, (k, v) ∈ l ↔ HasPair t.entries k v) ∧
      (ht_length t = 0 → ∃ it2, ht_next (ht_iterator t) = some (false, it2)) := by
  have inv := reachable_inv t hre
  have hlen := inv.wf.hlen
  have hitems : ht_items ⟨none, 0, t, 0⟩ (t.capacity + 1)
      = some ((t.entries.drop 0).filterMap id) := by
    refine ht_items_go t hlen (t.capacity + 1) 0 none 0 ?_
    rw [List.drop_zero]
    have h1 : (t.entries.filterMap id).length = occCount t.entries := rfl
    have h2 := TableInv_occ_lt t inv
    omega
  rw [List.drop_zero] at hitems
  refine ⟨t.entries.filterMap id, hitems, ?_, ?_, ?_, ?_, ?_⟩
  · show (t.entries.filterMap id).length = t.length
    have h1 : occCount t.entries = (t.entries.filterMap id).length := rfl
    have h2 := inv.len_eq
    omega
  · intro p hp
    have hp2 : HasPair t.entries p.1 p.2 :=
      (hasPair_iff_mem _ _ _).mpr (by simpa using hp)
    exact (ht_get_spec t inv p.1).1 p.2 hp2
  · exact nodup_keys_of_WF t.entries inv.wf
  · intro k v
    exact (hasPair_iff_mem t.entries k v).symm
  · intro hlen0
    have hocc0 : occCount t.entries = 0 := by
      have h2 := inv.len_eq
      have h3 : ht_length t = t.length := rfl
      omega
    have hl0 : t.entries.filterMap id = [] := List.length_eq_zero.mp hocc0
    rw [hl0] at hitems
    show ∃ it2, ht_next ⟨none, 0, t, 0⟩ = some (false, it2)
    cases hnext : ht_next ⟨none, 0, t, 0⟩ with
    | none =>
      rw [ht_items, hnext] at hitems
      exact absurd hitems (by simp)
    | some q =>
      obtain ⟨b, it2⟩ := q
      cases b with
      | false => exact ⟨it2, rfl⟩
      | true =>
        rw [ht_items, hnext] at hitems
        have hitems2 : (match ht_items it2 t.capacity with
            | none => none
            | some rest => some ((it2.key.getD [], it2.value) :: rest))
            = some ([] : List (Key × Nat)) := hitems
        cases hrest : ht_items it2 t.capacity with
        | none =>
          rw [hrest] at hitems2
          exact absurd hitems2 (by simp)
        | some rest =>
          rw [hrest] at hitems2
          simp at hitems2

theorem claim_C3_witness :
    (ht_items (ht_iterator growthTable) (growthTable.capacity + 1)).map
      List.length = some (ht_length growthTable) := by
  have hr : Reachable growthTable := runSets_reachable opsGrowth ht_create
    growthTable Reachable.create (by decide)
  obtain ⟨l, h1, h2, _⟩ := claim_C3 growthTable hr
  rw [h1]
  simp [h2]

/-- Claim C4: in every reachable table the capacity is a power of two, at
least the initial 16, and after every operation `length <= capacity / 2`
(the load factor never exceeds one half at an observable point). -/
theorem claim_C4 (t : Table) (hre : Reachable t) :
    ht_create.capacity = 16 ∧ (∃ j, t.capacity = 2 ^ j) ∧
    16 ≤ t.capacity ∧ t.length ≤ t.capacity / 2 := by
  have inv := reachable_inv t hre
  obtain ⟨j, _, _, hcap⟩ := inv.cap_pow
  exact ⟨rfl, ⟨j, hcap⟩, TableInv_cap16 t inv, inv.load⟩

theorem claim_C4_witness :
    16 ≤ growthTable.capacity ∧
    growthTable.length ≤ growthTable.capacity / 2 := by
  have hr : Reachable growthTable := runSets_reachable opsGrowth ht_create
    growthTable Reachable.create (by decide)
  have h := claim_C4 growthTable hr
  exact ⟨h.2.2.1, h.2.2.2⟩

/-- Claim C5 counterexample: on a reachable table at the load trigger, a
`set` whose growth succeeds but whose key duplication fails returns the
failure result, yet the capacity has doubled from 16 to 32 — the table is
not left exactly as it was before the call. -/
theorem claim_C5_counterexample :
    ht_set t8 [200] 1 true false = some (none, t8f) ∧
    t8.capacity = 16 ∧ t8f.capacity = 32 ∧ Reachable t8 := by
  refine ⟨by decide, by decide, by decide,
    runSets_reachable ops8 ht_create t8 Reachable.create (by decide)⟩

/-- Claim C5 (amended): a failed `set` (allocation failure during growth
or key duplication, or `NULL` value) returns `NULL` and leaves length and
every key-to-value mapping unchanged; the capacity is unchanged except
that a failure during key duplication that followed a successful growth
leaves the capacity doubled. -/
theorem claim_C5 (t : Table) (k : Key) (v : Nat) (aE aD : Bool)
    (t2 : Table) (hre : Reachable t)
    (h : ht_set t k v aE aD = some (none, t2)) :
    ht_length t2 = ht_length t ∧ (∀ k2, ht_get t2 k2 = ht_get t k2) ∧
    (t2.capacity = t.capacity ∨ t2.capacity = 2 * t.capacity) := by
  have inv := reachable_inv t hre
  by_cases hv : v = 0
  · subst hv
    rw [ht_set_zero] at h
    simp only [Option.some.injEq, Prod.mk.injEq] at h
    rw [← h.2]
    exact ⟨rfl, fun _ => rfl, Or.inl rfl⟩
  · obtain ⟨r, t3, hset, inv3, hcap, hres, _, _⟩ :=
      ht_set_cases t k v aE aD inv hv
    rw [hset] at h
    simp only [Option.some.injEq, Prod.mk.injEq] at h
    obtain ⟨hr, ht⟩ := h
    subst ht
    rcases hres with ⟨_, hlen, hpairs⟩ | ⟨hsome, _, _⟩
    · refine ⟨hlen, ?_, hcap⟩
      intro k2
      by_cases hk2 : HasKey t.entries k2
      · obtain ⟨v2, hp⟩ := hk2
        rw [(ht_get_spec t inv k2).1 v2 hp,
          (ht_get_spec t3 inv3 k2).1 v2 ((hpairs k2 v2).mpr hp)]
      · have hk3 : ¬ HasKey t3.entries k2 := by
          rintro ⟨v2, hp⟩
          exact hk2 ⟨v2, (hpairs k2 v2).mp hp⟩
        rw [(ht_get_spec t inv k2).2 hk2, (ht_get_spec t3 inv3 k2).2 hk3]
    · rw [hsome] at hr
      exact absurd hr (by simp)

theorem claim_C5_witness : ht_length t8f = ht_length t8 ∧
    ht_get t8f [103] = ht_get t8 [103] := by
  have hr : Reachable t8 := runSets_reachable ops8 ht_create t8
    Reachable.create (by decide)
  have h := claim_C5 t8 [200] 1 true false t8f hr (by decide)
  exact ⟨h.1, h.2.1 [103]⟩

/-- Claim C6: `set` with a `NULL` value returns failure and changes
nothing — the table is returned exactly as it was, so `length` and every
`get` result are unchanged. -/
theorem claim_C6 (t : Table) (k : Key) (aE aD : Bool) :
    ht_set t k 0 aE aD = some (none, t) ∧
    (ht_set t k 0 aE aD).map (fun p => ht_length p.2) = some (ht_length t) ∧
    (ht_set t k 0 aE aD).map (fun p => ht_get p.2 k) = some (ht_get t k) := by
  refine ⟨ht_set_zero t k aE aD, ?_, ?_⟩ <;> simp [ht_set_zero]

/-- Claim C7 counterexample: the failure result for a `NULL` value and the
failure result for an allocation failure are the very same value (`NULL`
returned, table handed back): on a fresh table the two calls return
identical results, so a caller cannot tell them apart. -/
theorem claim_C7_counterexample :
    ht_set ht_create [97] 0 true true = ht_set ht_create [98] 5 true false ∧
    ht_set ht_create [97] 0 true true = some (none, ht_create) := by
  constructor <;> decide

/-- Claim C7 (amended): `set` signals both a `NULL`-value rejection and an
allocation failure with the same returned value `NULL`; the two failure
kinds are not distinguishable from the result. -/
theorem claim_C7 (t : Table) (k k2 : Key) (v : Nat) (aE : Bool)
    (hre : Reachable t) (hv : v ≠ 0) (hmiss : ht_get t k2 = some 0) :
    (ht_set t k 0 aE true).map Prod.fst = some none ∧
    (ht_set t k2 v aE false).map Prod.fst = some none := by
  have inv := reachable_inv t hre
  constructor
  · rw [ht_set_zero]
    rfl
  · have habs : ¬ HasKey t.entries k2 := by
      rcases ht_get_inv t k2 0 inv hmiss with hp | ⟨_, habs⟩
      · exact absurd rfl (inv.vals k2 0 hp)
      · exact habs
    obtain ⟨r, t3, hset, _, _, _, _, hdup⟩ :=
      ht_set_cases t k2 v aE false inv hv
    rw [hset, hdup rfl habs]
    rfl

theorem claim_C7_witness :
    (ht_set ht_create [97] 0 true true).map Prod.fst = some none ∧
    (ht_set ht_create [98] 5 true false).map Prod.fst = some none :=
  claim_C7 ht_create [97] [98] 5 true Reachable.create (by decide)
    (by decide)

/-- Claim C8: on every reachable table, `get`, `set` and `next` terminate:
the probe and the scan loops reach a matching key, an empty slot or the
end of the array within capacity steps (the fuel bound `capacity` is never
exhausted), and the remaining operations are plain total functions. -/
theorem claim_C8 (t : Table) (hre : Reachable t) (k : Key) (v : Nat)
    (aE aD : Bool) (it : Hti) :
    ht_get t k ≠ none ∧ ht_set t k v aE aD ≠ none ∧ ht_next it ≠ none := by
  have inv := reachable_inv t hre
  refine ⟨?_, ht_set_total t k v aE aD inv, ht_next_ne_none it⟩
  obtain ⟨x, hx⟩ := ht_get_total t k inv
  rw [hx]
  simp

theorem claim_C8_witness :
    ht_get ht_create [97] ≠ none ∧ ht_set ht_create [97] 5 true true ≠ none ∧
    ht_next (ht_iterator ht_create) ≠ none :=
  claim_C8 ht_create Reachable.create [97] 5 true true
    (ht_iterator ht_create)

/-- Claim C9: a `set` issued when `length >= capacity / 2` grows the table
before probing, even when the key is already present — a successful call
from such a state always doubles the capacity, and the value is stored. -/
theorem claim_C9 (t : Table) (k : Key) (v : Nat) (aE aD : Bool) (rk : Key)
    (t2 : Table) (hre : Reachable t) (htr : t.capacity / 2 ≤ t.length)
    (h : ht_set t k v aE aD = some (some rk, t2)) :
    t2.capacity = 2 * t.capacity ∧ ht_get t2 k = some v := by
  have inv := reachable_inv t hre
  by_cases hv : v = 0
  · subst hv
    rw [ht_set_zero] at h
    simp at h
  · obtain ⟨r, t3, hset, inv3, _, hres, hgrow, _⟩ :=
      ht_set_cases t k v aE aD inv hv
    rw [hset] at h
    simp only [Option.some.injEq, Prod.mk.injEq] at h
    obtain ⟨hr, ht⟩ := h
    subst ht
    rcases hres with ⟨hnone, _, _⟩ | ⟨hsome, hpairs, _⟩
    · rw [hnone] at hr
      exact absurd hr (by simp)
    · refine ⟨hgrow htr (by rw [hsome]; simp), ?_⟩
      exact (ht_get_spec t3 inv3 k).1 v ((hpairs k v).mpr (Or.inl rfl))

theorem claim_C9_witness :
    t8g.capacity = 2 * t8.capacity ∧ ht_get t8g [100] = some 9 := by
  have hr : Reachable t8 := runSets_reachable ops8 ht_create t8
    Reachable.create (by decide)
  exact claim_C9 t8 [100] 9 true true [100] t8g hr (by decide) (by decide)

/-- Claim C10: once `next` has reported end (returned `false`), every
further `next` on that iterator (table unmodified) reports end again and
leaves the exposed `key`/`value` fields unchanged: the end state is a
fixed point of `next`. -/
theorem claim_C10 (it it2 : Hti) (h : ht_next it = some (false, it2)) :
    ht_next it2 = some (false, it2) ∧ it2.key = it.key ∧
    it2.value = it.value := by
  rw [ht_next] at h
  cases hl : ht_next_loop it._table it._index (it._table.capacity + 1) with
  | none =>
    rw [hl] at h
    exact absurd h (by simp)
  | some p =>
    obtain ⟨o, i2⟩ := p
    rw [hl] at h
    cases o with
    | some kv =>
      obtain ⟨k, v⟩ := kv
      simp at h
    | none =>
      have hcap : it._table.capacity ≤ i2 :=
        ht_next_loop_false it._table _ _ _ hl
      injection h with h
      injection h with hb h2
      subst h2
      exact ⟨ht_next_at_end _ hcap, rfl, rfl⟩

theorem claim_C10_witness : ht_next itEnd = some (false, itEnd) := by
  have h : ht_next (ht_iterator ht_create) = some (false, itEnd) := by
    decide
  exact (claim_C10 (ht_iterator ht_create) itEnd h).1
